import Mathlib

/-!
Verification of the numeric-tower core of `src/number.c` (Gauche).

The development shallowly embeds the data model and the operations the
claims need.  Machine integers (fixnums) and the external bignum engine
both denote exact integers, so the embedding merges them into `Int`;
each place where the C code dispatches on fixnum vs. bignum is noted at
the corresponding definition, together with the reason the merged
semantics is faithful.  IEEE-754 binary64 values are modelled bit-exactly
by `F64` below, and every libm / hardware floating-point operation the
code relies on (conversion, `+`, `-`, `*`, `/`, `ldexp`) is modelled as
the exact rational operation followed by rounding to nearest, ties to
even, which is what IEEE 754 specifies for the default rounding mode.
-/

set_option maxRecDepth 10000

namespace Gauche

/-! ## Bit-position utilities

`Scm_BitsHighest1` / `Scm_BitsLowest1` (used by `double_precision`,
number.c:1327-1347) return the highest / lowest set-bit index of a
nonzero magnitude.  The implementations below are logarithmic-depth so
that they evaluate inside the kernel even on numbers with hundreds of
millions of bits. -/

/-- Highest set bit of `n`, computed by peeling chunks of `2^(2^s)` bits. -/
def hiBitAux : Nat → Nat → Nat
  | 0, _ => 0
  | s+1, n => if n / (1 <<< (1 <<< s)) = 0 then hiBitAux s n
              else (1 <<< s) + hiBitAux s (n / (1 <<< (1 <<< s)))

/-- Index of the highest set bit (floor of log2) for `0 < n < 2^(2^30)`. -/
def hiBit (n : Nat) : Nat := hiBitAux 30 n

/-- Index of the lowest set bit, by peeling chunks of `2^(2^s)` bits. -/
def lowBitAux : Nat → Nat → Nat
  | 0, _ => 0
  | s+1, n => if n % (1 <<< (1 <<< s)) = 0 then
                (1 <<< s) + lowBitAux s (n / (1 <<< (1 <<< s)))
              else lowBitAux s n

/-- Index of the lowest set bit, valid whenever that index is below `2^30`. -/
def lowBit (n : Nat) : Nat := lowBitAux 30 n

theorem shiftLeft_one (k : Nat) : 1 <<< k = 2 ^ k := by
  simpa using Nat.shiftLeft_eq 1 k

theorem hiBitAux_spec (s : Nat) : ∀ n, 0 < n → n < 2 ^ (2 ^ s) →
    2 ^ hiBitAux s n ≤ n ∧ n < 2 ^ (hiBitAux s n + 1) := by
  induction s with
  | zero =>
    intro n h1 h2
    interval_cases n
    simp [hiBitAux]
  | succ s ih =>
    intro n h1 h2
    rw [hiBitAux, shiftLeft_one, shiftLeft_one]
    set P := 2 ^ (2 ^ s) with hP
    have hPpos : 0 < P := Nat.pos_pow_of_pos _ (by norm_num)
    have hdm : P * (n / P) + n % P = n := Nat.div_add_mod n P
    have hml : n % P < P := Nat.mod_lt n hPpos
    by_cases h : n / P = 0
    · rw [if_pos h]
      rw [h, Nat.mul_zero] at hdm
      exact ih n h1 (by omega)
    · rw [if_neg h]
      have hq1 : 0 < n / P := Nat.pos_of_ne_zero h
      have hq2 : n / P < P := by
        have hsq : (2:Nat) ^ (2 ^ (s+1)) = P * P := by
          rw [hP, ← pow_add]
          congr 1
          omega
        exact Nat.div_lt_of_lt_mul (hsq ▸ h2)
      obtain ⟨ih1, ih2⟩ := ih (n / P) hq1 hq2
      constructor
      · calc 2 ^ (2 ^ s + hiBitAux s (n / P)) = P * 2 ^ hiBitAux s (n / P) := by
              rw [hP, pow_add]
        _ ≤ P * (n / P) := Nat.mul_le_mul_left P ih1
        _ ≤ n := Nat.mul_div_le n P
      · have hexp : P * (n / P + 1) = P * (n / P) + P := by ring
        have hlt : n < P * (n / P + 1) := by omega
        calc n < P * (n / P + 1) := hlt
        _ ≤ P * 2 ^ (hiBitAux s (n / P) + 1) := Nat.mul_le_mul_left P ih2
        _ = 2 ^ (2 ^ s + hiBitAux s (n / P) + 1) := by
              rw [hP, ← pow_add]
              congr 1

theorem hiBit_spec (n : Nat) (h1 : 0 < n) (h2 : n < 2 ^ (2 ^ 30)) :
    2 ^ hiBit n ≤ n ∧ n < 2 ^ (hiBit n + 1) :=
  hiBitAux_spec 30 n h1 h2

theorem lowBitAux_spec (s : Nat) : ∀ n k, 2 ^ k ∣ n → ¬ 2 ^ (k+1) ∣ n →
    k < 2 ^ s → lowBitAux s n = k := by
  induction s with
  | zero =>
    intro n k _ _ hk
    interval_cases k
    simp [lowBitAux]
  | succ s ih =>
    intro n k hdvd hndvd hk
    rw [lowBitAux, shiftLeft_one, shiftLeft_one]
    set P := 2 ^ (2 ^ s) with hP
    have hPpos : 0 < P := Nat.pos_pow_of_pos _ (by norm_num)
    by_cases h : n % P = 0
    · rw [if_pos h]
      have hPn : P ∣ n := Nat.dvd_of_mod_eq_zero h
      have hks : 2 ^ s ≤ k := by
        by_contra hlt
        push_neg at hlt
        exact hndvd (dvd_trans (pow_dvd_pow 2 (by omega)) hPn)
      have hd1 : 2 ^ (k - 2 ^ s) ∣ n / P := by
        obtain ⟨m, hm⟩ := hdvd
        refine ⟨m, ?_⟩
        have : n = P * (2 ^ (k - 2 ^ s) * m) := by
          rw [hm, hP, ← mul_assoc, ← pow_add]
          congr 2
          omega
        rw [this, Nat.mul_div_cancel_left _ hPpos]
      have hd2 : ¬ 2 ^ (k - 2 ^ s + 1) ∣ n / P := by
        intro ⟨m, hm⟩
        apply hndvd
        refine ⟨m, ?_⟩
        have hn : n = P * (n / P) := (Nat.mul_div_cancel' hPn).symm
        rw [hn, hm, ← mul_assoc, hP, ← pow_add]
        congr 2
        omega
      have hklt : k - 2 ^ s < 2 ^ s := by
        have : (2:Nat) ^ (s+1) = 2 ^ s + 2 ^ s := by rw [pow_succ]; ring
        omega
      rw [ih _ _ hd1 hd2 hklt]
      omega
    · rw [if_neg h]
      have hkP : k < 2 ^ s := by
        by_contra hge
        push_neg at hge
        have hPk : P ∣ 2 ^ k := pow_dvd_pow 2 hge
        have hPn : P ∣ n := hPk.trans hdvd
        obtain ⟨m, hm⟩ := hPn
        exact h (by rw [hm]; exact Nat.mul_mod_right P m)
      exact ih n k hdvd hndvd hkP

/-! ## IEEE-754 binary64 model

`F64` represents a binary64 datum bit-exactly: a finite value is
`± m·2^e` with `m < 2^53`, `-1074 ≤ e ≤ 971` and (`2^52 ≤ m` or
`e = -1074`), exactly the decomposition published by `Scm_DecodeFlonum`
(number.c:402-414).  The two signed zeros are `fin neg 0 (-1074)`. -/

inductive F64 where
  | fin (neg : Bool) (m : Nat) (e : Int)
  | inf (neg : Bool)
  | nan
deriving DecidableEq, Repr

namespace F64

/-- Well-formedness of the representation (uniqueness of each value up to
the sign of zero). -/
def valid : F64 → Prop
  | .fin _ m e => m < 2 ^ 53 ∧ -1074 ≤ e ∧ e ≤ 971 ∧ (2 ^ 52 ≤ m ∨ e = -1074)
  | _ => True

instance decValid : (f : F64) → Decidable f.valid
  | .fin _ _ _ => inferInstanceAs (Decidable (_ ∧ _))
  | .inf _ => inferInstanceAs (Decidable True)
  | .nan => inferInstanceAs (Decidable True)

/-- The positive zero. -/
def pz : F64 := .fin false 0 (-1074)

/-- The negative zero. -/
def mz : F64 := .fin true 0 (-1074)

/-- Rational value of a finite `F64` (`0` for infinities and NaN, which
are screened wherever it matters). -/
def toQ : F64 → ℚ
  | .fin neg m e => (if neg then (-1:ℚ) else 1) * m * (2:ℚ) ^ e
  | _ => 0

/-- Zero test, as the C comparison `d == 0.0` (true for both zeros). -/
def isZero : F64 → Bool
  | .fin _ m _ => m = 0
  | _ => false

def isNaN : F64 → Bool
  | .nan => true
  | _ => false

/-- `SCM_IS_INF` (number.c:60-68). -/
def isInf : F64 → Bool
  | .inf _ => true
  | _ => false

def isFinite : F64 → Bool
  | .fin _ _ _ => true
  | _ => false

end F64

/-! ## Round to nearest, ties to even

All conversions from exact rationals to binary64 go through `roundSci`,
which rounds `±(n/d)·2^k` to the nearest representable value with ties
to even and IEEE overflow to infinity.  It implements the default IEEE
rounding, which is the behaviour of the hardware operations and of
`Scm_BignumToDouble` (external bignum engine, spec section 6). -/

/-- Integer rounding of `num/den` (`den > 0`), nearest, ties to even. -/
def rndNE (num den : Nat) : Nat :=
  let q := num / den
  let r := num % den
  if 2 * r < den then q
  else if den < 2 * r then q + 1
  else if q % 2 = 0 then q else q + 1

/-- Floor of the base-2 logarithm of `(n/d)·2^k` for `n, d ≥ 1`:
first estimate from the bit lengths, then one exact comparison. -/
def flog2 (n d : Nat) (k : Int) : Int :=
  let t : Int := (hiBit n : Int) - (hiBit d : Int)
  if (d <<< t.toNat : Nat) ≤ (n <<< (-t).toNat : Nat) then t + k else t - 1 + k

/-- Mantissa and exponent of the correctly rounded `(n/d)·2^k`
(`n, d ≥ 1`), before the overflow test: the result value is `m·2^exp`
with `m ≤ 2^52` forced only through the subnormal clamp. -/
def roundPosCore (n d : Nat) (k : Int) : Nat × Int :=
  let e := flog2 n d k
  let exp : Int := max (e - 52) (-1074)
  let sh : Int := k - exp
  let m := rndNE (n <<< sh.toNat) (d <<< (-sh).toNat)
  if m < 2 ^ 53 then (m, exp) else (2 ^ 52, exp + 1)

/-- Round `±(n/d)·2^k` (`d ≥ 1`; `n = 0` allowed) to binary64: nearest
value, ties to even, overflow to the signed infinity, underflow to the
signed zero. -/
def roundSci (neg : Bool) (n d : Nat) (k : Int) : F64 :=
  if n = 0 then .fin neg 0 (-1074)
  else
    let p := roundPosCore n d k
    if p.1 = 0 then .fin neg 0 (-1074)
    else if p.2 ≤ 971 then .fin neg p.1 p.2
    else .inf neg

/-- Correct rounding of a rational to binary64 (the specification-side
rounding function used in the claim statements). -/
def roundQ (q : ℚ) : F64 := roundSci (decide (q < 0)) q.num.natAbs q.den 0

/-- Conversion of an exact integer to double.  This is
`(double)SCM_INT_VALUE(obj)` for fixnums and `Scm_BignumToDouble` for
bignums (number.c:1366-1367); both round to nearest, ties to even
(C99 cast semantics in the default mode; the bignum engine is external
and its conversion is specified in spec section 6 as the rounded
conversion). -/
def getDoubleInt (v : Int) : F64 := roundSci (decide (v < 0)) v.natAbs 1 0

/-- C `ldexp` under round-to-nearest: exact scaling by `2^s` followed by
rounding (rounding matters only when the result is subnormal). -/
def ldexpF : F64 → Int → F64
  | .fin neg m e, s => if m = 0 then .fin neg 0 (-1074) else roundSci neg m 1 (e + s)
  | f, _ => f

namespace F64

/-- Negation (sign-bit flip). -/
def fneg : F64 → F64
  | .fin n m e => .fin (!n) m e
  | .inf n => .inf (!n)
  | .nan => .nan

/-- Comparison of two finite values `±m·2^e` by aligning the exponents;
the two zeros compare equal, as in C. -/
def cmpFin (n1 : Bool) (m1 : Nat) (e1 : Int) (n2 : Bool) (m2 : Nat) (e2 : Int) : Ordering :=
  let s1 : Int := if n1 then -(m1 : Int) else (m1 : Int)
  let s2 : Int := if n2 then -(m2 : Int) else (m2 : Int)
  let emin := min e1 e2
  compare (s1 * ((1 <<< (e1 - emin).toNat : Nat) : Int))
          (s2 * ((1 <<< (e2 - emin).toNat : Nat) : Int))

/-- Three-way comparison; `none` when either side is NaN (all C
comparisons on NaN are false). -/
def fcmp : F64 → F64 → Option Ordering
  | .nan, _ => none
  | _, .nan => none
  | .inf a, .inf b => some (if a = b then .eq else if a then .lt else .gt)
  | .inf a, .fin _ _ _ => some (if a then .lt else .gt)
  | .fin _ _ _, .inf b => some (if b then .gt else .lt)
  | .fin a m e, .fin b m' e' => some (cmpFin a m e b m' e')

/-- C `<` on doubles. -/
def flt (x y : F64) : Bool := fcmp x y = some .lt

/-- C `>` on doubles. -/
def fgt (x y : F64) : Bool := fcmp x y = some .gt

/-- C `==` on doubles. -/
def feq (x y : F64) : Bool := fcmp x y = some .eq

/-- IEEE multiplication: exact product, then rounding. -/
def fmul : F64 → F64 → F64
  | .nan, _ => .nan
  | _, .nan => .nan
  | .inf a, .inf b => .inf (xor a b)
  | .inf a, .fin b m _ => if m = 0 then .nan else .inf (xor a b)
  | .fin a m _, .inf b => if m = 0 then .nan else .inf (xor a b)
  | .fin a m e, .fin b m' e' =>
    if m * m' = 0 then .fin (xor a b) 0 (-1074)
    else roundSci (xor a b) (m * m') 1 (e + e')

/-- IEEE division: exact quotient, then rounding. -/
def fdiv : F64 → F64 → F64
  | .nan, _ => .nan
  | _, .nan => .nan
  | .inf _, .inf _ => .nan
  | .inf a, .fin b _ _ => .inf (xor a b)
  | .fin a _ _, .inf b => .fin (xor a b) 0 (-1074)
  | .fin a m e, .fin b m' e' =>
    if m' = 0 then (if m = 0 then .nan else .inf (xor a b))
    else if m = 0 then .fin (xor a b) 0 (-1074)
    else roundSci (xor a b) m m' (e - e')

/-- IEEE addition: exact sum, then rounding (exact cancellation gives
`+0` in round-to-nearest). -/
def fadd : F64 → F64 → F64
  | .nan, _ => .nan
  | _, .nan => .nan
  | .inf a, .inf b => if a = b then .inf a else .nan
  | .inf a, .fin _ _ _ => .inf a
  | .fin _ _ _, .inf b => .inf b
  | .fin a m e, .fin b m' e' =>
    if m = 0 ∧ m' = 0 then (if a = b then .fin a 0 (-1074) else .fin false 0 (-1074))
    else
      let emin := min e e'
      let s1 : Int := (if a then -(m : Int) else (m : Int)) * ((1 <<< (e - emin).toNat : Nat) : Int)
      let s2 : Int := (if b then -(m' : Int) else (m' : Int)) * ((1 <<< (e' - emin).toNat : Nat) : Int)
      let s := s1 + s2
      if s = 0 then .fin false 0 (-1074)
      else roundSci (decide (s < 0)) s.natAbs 1 emin

/-- IEEE subtraction. -/
def fsub (x y : F64) : F64 := fadd x (fneg y)

/-- C `floor`. -/
def ffloor : F64 → F64
  | .fin neg m e =>
    if 0 ≤ e then .fin neg m e
    else
      let k := (-e).toNat
      if neg then roundSci true ((m + (1 <<< k) - 1) >>> k) 1 0
      else roundSci false (m >>> k) 1 0
  | f => f

/-- C `ceil`. -/
def fceil (x : F64) : F64 := fneg (ffloor (fneg x))

/-- C `fmod`: the exact truncated remainder, which is always
representable, computed on exponent-aligned integer scalings. -/
def ffmod : F64 → F64 → F64
  | .nan, _ => .nan
  | _, .nan => .nan
  | .inf _, _ => .nan
  | f, .inf _ => f
  | .fin a m e, .fin b m' e' =>
    if m' = 0 then .nan
    else
      let emin := min e e'
      let s1 : Int := (if a then -(m : Int) else (m : Int)) * ((1 <<< (e - emin).toNat : Nat) : Int)
      let s2 : Int := (if b then -(m' : Int) else (m' : Int)) * ((1 <<< (e' - emin).toNat : Nat) : Int)
      let r := s1.tmod s2
      if r = 0 then .fin a 0 (-1074)
      else roundSci (decide (r < 0)) r.natAbs 1 emin

/-- C `rint` / the local `roundeven` (number.c:3151-3170): round to the
nearest integer, ties to even. -/
def frint : F64 → F64
  | .fin neg m e =>
    if 0 ≤ e then .fin neg m e
    else roundSci neg (rndNE m (1 <<< (-e).toNat)) 1 0
  | f => f

end F64

/-! ## The numeric tower

`SNum` is the tagged sum of the four numeric variants of the tower.
Fixnums and bignums both denote exact integers and every arithmetic
path below computes the same mathematical value on both (the individual
definitions note why), so they are merged into the single `int` arm. -/

inductive SNum where
  | int (v : Int)
  | rat (n d : Int)
  | flo (f : F64)
  | comp (re im : F64)
deriving DecidableEq, Repr

/-- Runtime errors raised by the embedded operations (`Scm_Error`). -/
inductive RtErr where
  | divByZero
  | typeErr
  | ashTooBig
  | implLimit
  | exactInfNan
deriving DecidableEq, Repr

namespace SNum

instance instDecEqExcept {e a : Type} [DecidableEq e] [DecidableEq a] :
    DecidableEq (Except e a) := fun x y =>
  match x, y with
  | .ok u, .ok v =>
    if h : u = v then isTrue (by rw [h]) else isFalse (by intro hc; cases hc; exact h rfl)
  | .error u, .error v =>
    if h : u = v then isTrue (by rw [h]) else isFalse (by intro hc; cases hc; exact h rfl)
  | .ok _, .error _ => isFalse (by intro hc; cases hc)
  | .error _, .ok _ => isFalse (by intro hc; cases hc)

/-- Canonicalization invariants of the tower (spec section 3): a Ratnum
has positive denominator distinct from 1 and coprime components; a
Compnum has nonzero imaginary part. -/
def valid : SNum → Prop
  | .int _ => True
  | .rat n d => 1 < d ∧ Int.gcd n d = 1
  | .flo f => f.valid
  | .comp re im => re.valid ∧ im.valid ∧ im.isZero = false

instance decValidS : (x : SNum) → Decidable x.valid
  | .int _ => inferInstanceAs (Decidable True)
  | .rat _ _ => inferInstanceAs (Decidable (_ ∧ _))
  | .flo _ => F64.decValid _
  | .comp _ _ => inferInstanceAs (Decidable (_ ∧ _))

/-- Exactness predicate (`SCM_EXACTP`). -/
def exactP : SNum → Bool
  | .int _ => true
  | .rat _ _ => true
  | _ => false

/-- Value of a real `SNum` as an exact rational (`0` for complex, which
is screened wherever it matters). -/
def toQ : SNum → ℚ
  | .int v => (v : ℚ)
  | .rat n d => (n : ℚ) / (d : ℚ)
  | .flo f => f.toQ
  | .comp _ _ => 0

end SNum

/-! ## Signs, predicates and primitive integer operations -/

/-- `Scm_FlonumSign` (number.c:462-465): `signbit(d) ? -1 : 1`.  The sign
bit of our `nan` is taken as positive, matching `SCM_DBL_NAN`. -/
def flonumSign (f : F64) : Int :=
  match f with
  | .fin neg _ _ => if neg then -1 else 1
  | .inf neg => if neg then -1 else 1
  | .nan => 1

/-- `Scm_Sign` (number.c:1603-1625).  Fixnum and bignum branches both
return the integer sign; the flonum branch tests `v == 0.0` first (so
both zeros give 0) and yields -1 for NaN, as the C comparisons do. -/
def scm_Sign : SNum → Int
  | .int v => Int.sign v
  | .rat n _ => Int.sign n
  | .flo f =>
    if f.isZero then 0
    else if f.fgt F64.pz then 1 else -1
  | .comp _ _ => 0

/-- `Scm_IntegerP` (number.c:1494-1509) on numbers: exact integers, and
finite flonums with zero fractional part. -/
def integerP : SNum → Bool
  | .int _ => true
  | .rat _ _ => false
  | .flo f =>
    match f with
    | .fin _ m e => if 0 ≤ e then true else m % (1 <<< (-e).toNat) = 0
    | _ => false
  | .comp _ _ => false

/-- `Scm_LogNot` (number.c:3333-3342): both the fixnum branch (`~v`) and
the bignum branch (`-(v+1)`) compute the twos-complement complement. -/
def scm_LogNot (x : Int) : Int := -(x + 1)

/-- Two's-complement bitwise AND on unbounded integers, the semantics of
`Scm_LogAnd` / `Scm_BignumLogAnd` (number.c:3344-3362; the engine is
external, spec section 6 specifies the two's-complement view).  Written
by cases on the signs: `negSucc b` has bit pattern NOT `b`. -/
def tcAnd : Int → Int → Int
  | .ofNat a, .ofNat b => .ofNat (a &&& b)
  | .ofNat a, .negSucc b => .ofNat (a - (a &&& b))
  | .negSucc a, .ofNat b => .ofNat (b - (a &&& b))
  | .negSucc a, .negSucc b => .negSucc (a ||| b)

/-- `Scm_Ash` (number.c:3287-3331).  Shift amounts of `0x10000000` or
more are refused.  A nonnegative count multiplies by `2^cnt` (the
fixnum branch promotes on overflow, the bignum branch is
`Scm_BignumAsh`; both are exact).  A negative count is an arithmetic
right shift: `ix >>= -cnt` for nonnegative values and
`~((~ix) >> -cnt)` for negative ones, which together are floor division
by `2^(-cnt)`; counts at or below the word size collapse to 0 / -1,
which is the same floor. -/
def scm_Ash (x : Int) (cnt : Int) : Except RtErr Int :=
  if 268435456 ≤ cnt then .error .ashTooBig
  else if 0 ≤ cnt then .ok (x * ((1 <<< cnt.toNat : Nat) : Int))
  else .ok (Int.fdiv x ((1 <<< (-cnt).toNat : Nat) : Int))

/-- `Scm_Gcd` (number.c:2696-2753) restricted to exact integers (the
claims never reach the flonum branch).  After the zero shortcuts, every
path — `gcd_fixfix`, `gcd_bigfix` (one bignum-by-word division followed
by `gcd_fixfix`), and the generic loop of truncated `Scm_Modulo` on
absolute values — is the Euclidean algorithm on `|x|`, `|y|`, hence
computes `Nat.gcd`.  Note the zero shortcuts return the other operand
unchanged (sign included). -/
def scm_gcd (x y : Int) : Int :=
  if x = 0 then y
  else if y = 0 then x
  else Int.ofNat (Nat.gcd x.natAbs y.natAbs)

/-! ## Integer division: `Scm_Quotient` and `Scm_Modulo` -/

/-- `Scm_Quotient` (number.c:2460-2546), returning the pair
(quotient, remainder).  On two exact integers the fixnum branch uses
the C `/` and `%` operators (truncated division per C99, fixnum
arguments cannot overflow the machine word), the fixnum-by-bignum
branch returns `(0, x)` (correct for truncation because a normalized
bignum always exceeds any fixnum in magnitude), and the bignum branches
delegate to the engine's truncated division (spec section 6); all of
them are `Int.tdiv` / `Int.tmod`.  Flonum operands must be integral
values and go through `DO_FLONUM`. -/
def scm_Quotient (x y : SNum) : Except RtErr (SNum × SNum) :=
  if y = .int 1 then
    if integerP x then .ok (x, .int 0) else .error .typeErr
  else
    match x, y with
    | .int a, .int b =>
      if b = 0 then .error .divByZero
      else .ok (.int (a.tdiv b), .int (a.tmod b))
    | .int a, .flo g =>
      if g.feq g.ffloor then quotientFlo (getDoubleInt a) g else .error .typeErr
    | .int _, _ => .error .typeErr
    | .rat _ _, _ => .error .typeErr
    | .flo f, y' =>
      if f.feq f.ffloor then
        match y' with
        | .int b => quotientFlo f (getDoubleInt b)
        | .flo g => if g.feq g.ffloor then quotientFlo f g else .error .typeErr
        | _ => .error .typeErr
      else .error .typeErr
    | .comp _ _, _ => .error .typeErr
where
  /-- The `DO_FLONUM` tail (number.c:2523-2534). -/
  quotientFlo (rx ry : F64) : Except RtErr (SNum × SNum) :=
    if ry.isZero then .error .divByZero
    else
      let q := if (rx.fmul ry).fgt F64.pz then (rx.fdiv ry).ffloor else (rx.fdiv ry).fceil
      let q := if q.isZero then F64.pz else q
      let rr := (rx.fsub (q.fmul ry)).frint
      let rr := if rr.isZero then F64.pz else rr
      .ok (.flo q, .flo rr)

/-- `Scm_Modulo` (number.c:2553-2654).  On two exact integers every
branch computes the truncated remainder (C `%`, `Scm_BignumRemSI`,
`Scm_BignumDivRem`) and then, for `remp = false` (modulo), adds the
divisor when the remainder is nonzero and the operand signs differ,
which is floor modulo.  The fixnum-by-bignum shortcut relies on
`|x| < |y|` (a normalized bignum exceeds any fixnum), so its truncated
remainder is `x` itself.  Flonum operands must be integral. -/
def scm_Modulo (x y : SNum) (remp : Bool) : Except RtErr SNum :=
  match x, y with
  | .int a, .int b =>
    if b = 0 then .error .divByZero
    else
      let r := a.tmod b
      if ¬remp ∧ r ≠ 0 ∧ ((0 < a ∧ b < 0) ∨ (a < 0 ∧ 0 < b)) then .ok (.int (r + b))
      else .ok (.int r)
  | .int a, .flo g =>
    if g.feq g.ffloor then moduloFlo (getDoubleInt a) g remp else .error .typeErr
  | .int _, _ => .error .typeErr
  | .rat _ _, _ => .error .typeErr
  | .flo f, y' =>
    if f.feq f.ffloor then
      match y' with
      | .int b => moduloFlo f (getDoubleInt b) remp
      | .flo g => if g.feq g.ffloor then moduloFlo f g remp else .error .typeErr
      | _ => .error .typeErr
    else .error .typeErr
  | .comp _ _, _ => .error .typeErr
where
  /-- The flonum tail (number.c:2633-2642). -/
  moduloFlo (rx ry : F64) (remp : Bool) : Except RtErr SNum :=
    if ry.isZero then .error .divByZero
    else
      let rem := rx.ffmod ry
      let rem := if ¬remp ∧ ¬rem.isZero ∧ ((rx.fgt F64.pz ∧ ry.flt F64.pz) ∨ (rx.flt F64.pz ∧ ry.fgt F64.pz))
                 then rem.fadd ry else rem
      let rem := if rem.isZero then F64.pz else rem
      .ok (.flo rem)

/-! ## Ratnum constructors -/

/-- `Scm_MakeRatnum` (number.c:649-665): the raw constructor; rejects
non-integer parts and a zero denominator, performs no reduction. -/
def scm_MakeRatnum (n d : SNum) : Except RtErr SNum :=
  match n, d with
  | .int a, .int b =>
    if b = 0 then .error .divByZero else .ok (.rat a b)
  | _, _ => .error .typeErr

/-- `Scm_ReduceRational` (number.c:702-744).  The `negated` flag only
selects between reusing the argument object and allocating a fresh
ratnum with the same parts; both give the same value here. -/
def scm_ReduceRational (x : SNum) : Except RtErr SNum :=
  match x with
  | .int v => .ok (.int v)
  | .rat n0 d0 =>
    let n := if d0 < 0 then -n0 else n0
    let d := if d0 < 0 then -d0 else d0
    if d = 1 then .ok (.int n)
    else if d = 0 then
      .ok (.flo (if 0 < n then .inf false else if n < 0 then .inf true else .nan))
    else
      let common := scm_gcd n d
      if common = 1 then .ok (.rat n d)
      else
        let nq := n.tdiv common
        let dq := d.tdiv common
        if dq = 1 then .ok (.int nq) else .ok (.rat nq dq)
  | _ => .error .typeErr

/-- `Scm_MakeRational` (number.c:670-684): full canonicalizing
constructor. -/
def scm_MakeRational (n d : SNum) : Except RtErr SNum :=
  match n, d with
  | .int a, .int b =>
    if b = 0 then .error .divByZero
    else if b = 1 then .ok (.int a)
    else if a = 0 then .ok (.int 0)
    else scm_ReduceRational (.rat a b)
  | _, _ => .error .typeErr

/-- `Scm_RatnumAddSub` (number.c:747-785).  The numerator/denominator
extraction treats an exact integer as `v/1`.  The inner `Scm_Mul`,
`Scm_Add`, `Scm_Sub` and `Scm_Quotient` calls all receive exact
integers and compute the exact integer operations.  Note the shortcut
condition at number.c:761 tests `SCM_EXACT_ONE_P(dx)` twice (the second
operand was presumably meant to be `dy`); the transcription keeps the
source's condition. -/
def scm_RatnumAddSub (x y : SNum) (subtract : Bool) : Except RtErr SNum :=
  match x, y with
  | .int _, _ | .rat _ _, _ =>
    match y with
    | .int _ | .rat _ _ =>
      let nx := match x with | .rat n _ => n | .int v => v | _ => 0
      let dx : Int := match x with | .rat _ d => d | _ => 1
      let ny := match y with | .rat n _ => n | .int v => v | _ => 0
      let dy : Int := match y with | .rat _ d => d | _ => 1
      if dx = dy then
        scm_MakeRational (.int (if subtract then nx - ny else nx + ny)) (.int dx)
      else
        let gcd := if dx = 1 ∨ dx = 1 then 1 else scm_gcd dx dy
        if dx = gcd then
          let nx2 := (dy.tdiv dx) * nx
          scm_MakeRational (.int (if subtract then nx2 - ny else nx2 + ny)) (.int dy)
        else if dy = gcd then
          let ny2 := (dx.tdiv dy) * ny
          scm_MakeRational (.int (if subtract then nx - ny2 else nx + ny2)) (.int dx)
        else
          let fx := dx.tdiv gcd
          let fy := dy.tdiv gcd
          let nx2 := nx * fy
          let ny2 := ny * fx
          scm_MakeRational (.int (if subtract then nx2 - ny2 else nx2 + ny2)) (.int (dx * fy))
    | _ => .error .typeErr
  | _, _ => .error .typeErr

/-- `Scm_RatnumMulDiv` (number.c:787-799). -/
def scm_RatnumMulDiv (x y : SNum) (divide : Bool) : Except RtErr SNum :=
  match x, y with
  | .int _, _ | .rat _ _, _ =>
    match y with
    | .int _ | .rat _ _ =>
      let nx := match x with | .rat n _ => n | .int v => v | _ => 0
      let dx : Int := match x with | .rat _ d => d | _ => 1
      let ny0 := match y with | .rat n _ => n | .int v => v | _ => 0
      let dy0 : Int := match y with | .rat _ d => d | _ => 1
      let ny := if divide then dy0 else ny0
      let dy := if divide then ny0 else dy0
      scm_MakeRational (.int (nx * ny)) (.int (dx * dy))
    | _ => .error .typeErr
  | _, _ => .error .typeErr

/-! ## Rational-to-double conversion: `Scm_GetDouble` -/

/-- Highest set-bit index of `|v|` as reported through `double_precision`
(number.c:1327-1347); `Scm_BitsHighest1` yields -1 when no bit is set. -/
def dpHi (v : Int) : Int := if v = 0 then -1 else (hiBit v.natAbs : Int)

/-- Lowest set-bit index of `|v|`, -1 when `v = 0`. -/
def dpLo (v : Int) : Int := if v = 0 then -1 else (lowBit v.natAbs : Int)

/-- `double_precision` (number.c:1327-1347): whether `|si|` spans fewer
than 53 bits.  The fixnum and bignum branches compute the same two bit
positions. -/
def doublePrecision (v : Int) : Bool := dpHi v - dpLo v < 53

/-- `abs_bittest` (number.c:1350-1361): bit `bit` of `|si|`. -/
def absBitTest (v : Int) (bit : Int) : Bool := Nat.testBit v.natAbs bit.toNat

/-- The full-precision tail of `Scm_GetDouble` on a ratnum
(number.c:1411-1483), after the numerator has been shifted left by
`shift`.  `Scm_Quotient` on exact integers is truncated division (see
`scm_Quotient`), `Scm_LogAnd`/`Scm_LogNot` are the two's-complement bit
operations, and `ldexp` rounds once more when the result is subnormal. -/
def gdFull (numer2 denom : Int) (shift : Int) : F64 :=
  let quo0 := numer2.tdiv denom
  let rem := numer2.tmod denom
  let quo :=
    if 1076 < shift then
      let mask := scm_LogNot (((1 <<< (shift - 1077).toNat : Nat) : Int) - 1)
      if quo0 < 0 then -(tcAnd (-quo0) mask) else tcAnd quo0 mask
    else quo0
  let q_hi := dpHi quo
  if doublePrecision quo then ldexpF (getDoubleInt quo) (-shift)
  else if absBitTest quo (q_hi - 53) = false then ldexpF (getDoubleInt quo) (-shift)
  else
    let mask2 : Int := ((1 <<< (q_hi - 53).toNat : Nat) : Int)
    if rem ≠ 0 ∨ tcAnd (if quo < 0 then -quo else quo) (mask2 - 1) ≠ 0 then
      ldexpF (getDoubleInt (if quo < 0 then quo - mask2 else quo + mask2)) (-shift)
    else if absBitTest quo (q_hi - 52) = false then
      ldexpF (getDoubleInt (if quo < 0 then quo + mask2 else quo - mask2)) (-shift)
    else ldexpF (getDoubleInt quo) (-shift)

/-- `Scm_GetDouble` (number.c:1363-1486).  Flonums return their value;
exact integers are rounded (`getDoubleInt`); a ratnum takes the
short division path when both parts carry at most 53 significant bits
and convert to finite doubles (the division is then performed in strict
binary64 precision, which `F64.fdiv` models), and the full-precision
path otherwise.  The `Scm_Ash` shift-count cap (number.c:3292-3294)
makes the full path fail for denominators that exceed the numerator by
about `2^28` binary digits.  Every other argument falls to the final
`else` and yields `0.0` (number.c:1485). -/
def getDouble : SNum → Except RtErr F64
  | .flo f => .ok f
  | .int v => .ok (getDoubleInt v)
  | .rat numer denom =>
    let n_hi := dpHi numer
    let d_hi := dpHi denom
    if doublePrecision numer ∧ doublePrecision denom
       ∧ (getDoubleInt numer).isInf = false ∧ (getDoubleInt denom).isInf = false then
      .ok (F64.fdiv (getDoubleInt numer) (getDoubleInt denom))
    else
      if n_hi - d_hi < 54 then
        let shift := 54 - (n_hi - d_hi)
        if (268435456 : Int) ≤ shift then .error .ashTooBig
        else .ok (gdFull (numer * ((1 <<< shift.toNat : Nat) : Int)) denom shift)
      else .ok (gdFull numer denom 0)
  | .comp _ _ => .ok F64.pz

/-! ## Generic multiplication -/

/-- `Scm_MakeComplex` (number.c:820-824): demotes to a flonum when the
imaginary part is (either) zero. -/
def makeComplex (r i : F64) : SNum :=
  if i.isZero then .flo r else .comp r i

/-- `scm_mul` (number.c:2007-2153).  The fixnum-by-fixnum branch
computes the machine product with an overflow check and promotes to a
bignum when needed; with merged exact integers every exact branch is
the exact integer product.  `Scm_RatnumMul` is `Scm_RatnumMulDiv` with
`divide = false`.  The inexact branches convert the exact operand with
`Scm_GetDouble` (which can fail on cap-exceeding ratnums) and multiply
in binary64. -/
def scm_mul (arg0 arg1 : SNum) : Except RtErr SNum :=
  match arg0, arg1 with
  | .int a, .int b => .ok (.int (a * b))
  | .int a, .rat _ _ =>
    if a = 0 then .ok (.int 0)
    else if a = 1 then .ok arg1
    else scm_RatnumMulDiv arg0 arg1 false
  | .int a, .flo g =>
    if a = 0 then .ok (.int 0)
    else if a = 1 then .ok (.flo g)
    else .ok (.flo ((getDoubleInt a).fmul g))
  | .int a, .comp re im =>
    if a = 0 then .ok (.int 0)
    else if a = 1 then .ok arg1
    else .ok (makeComplex ((getDoubleInt a).fmul re) ((getDoubleInt a).fmul im))
  | .rat _ _, .int b =>
    if b = 0 then .ok (.int 0)
    else if b = 1 then .ok arg0
    else scm_RatnumMulDiv arg0 arg1 false
  | .rat _ _, .rat _ _ => scm_RatnumMulDiv arg0 arg1 false
  | .rat _ _, .flo g =>
    if g.isZero then .ok (.flo g)
    else
      match getDouble arg0 with
      | .error e => .error e
      | .ok z => .ok (.flo (z.fmul g))
  | .rat _ _, .comp re im =>
    match getDouble arg0 with
    | .error e => .error e
    | .ok z => .ok (makeComplex (z.fmul re) (z.fmul im))
  | .flo f, .int b =>
    if b = 0 then .ok (.int 0)
    else if b = 1 then .ok (.flo f)
    else .ok (.flo (f.fmul (getDoubleInt b)))
  | .flo f, .rat _ _ =>
    match getDouble arg1 with
    | .error e => .error e
    | .ok z => .ok (.flo (f.fmul z))
  | .flo f, .flo g =>
    if g.feq (.fin false (2 ^ 52) (-52)) then .ok (.flo f)
    else .ok (.flo (f.fmul g))
  | .flo f, .comp re im => .ok (makeComplex (f.fmul re) (f.fmul im))
  | .comp re im, .int b =>
    if b = 0 then .ok (.int 0)
    else if b = 1 then .ok arg0
    else .ok (makeComplex (re.fmul (getDoubleInt b)) (im.fmul (getDoubleInt b)))
  | .comp re im, .rat _ _ =>
    match getDouble arg1 with
    | .error e => .error e
    | .ok z => .ok (makeComplex (re.fmul z) (im.fmul z))
  | .comp re im, .flo g =>
    if g.feq (.fin false (2 ^ 52) (-52)) then .ok arg0
    else .ok (makeComplex (re.fmul g) (im.fmul g))
  | .comp r0 i0, .comp r1 i1 =>
    .ok (makeComplex ((r0.fmul r1).fsub (i0.fmul i1)) ((r0.fmul i1).fadd (r1.fmul i0)))

/-! ## Inexact conversion, exact conversion, division -/

/-- `inexact` / `Scm_Inexact` (number.c:1696-1711). -/
def scm_Inexact (x : SNum) : Except RtErr SNum :=
  match x with
  | .int v => .ok (.flo (getDoubleInt v))
  | .rat _ _ => do
    let z ← getDouble x
    .ok (.flo z)
  | .flo _ => .ok x
  | .comp _ _ => .ok x

/-- `Scm_FlonumIntegerToExact` (number.c:332-353) for an integral
argument: the exact integer value (fixnum or bignum; merged). -/
def flonumToInt (f : F64) : Int :=
  match f with
  | .fin neg m e =>
    let mag : Nat := if 0 ≤ e then m <<< e.toNat else m >>> (-e).toNat
    if neg then -(mag : Int) else (mag : Int)
  | _ => 0

/-- Simplest rational in the positive interval `[p/q, r/s]` by the
continued-fraction bisection; the fuel bounds the recursion depth (far
beyond what any binary64 interval needs). -/
def simplestPos (fuel : Nat) (p q r s : Int) : Int × Int :=
  match fuel with
  | 0 => (r, s)
  | fuel+1 =>
    let cl := -((-p).fdiv q)
    if cl * s ≤ r then (cl, 1)
    else
      let n := p.fdiv q
      let pr := simplestPos fuel s (r - n * s) q (p - n * q)
      (n * pr.1 + pr.2, pr.1)

/-- Simplest rational in `[ln/ld, hn/hd]` (`ld, hd > 0`). -/
def simplestIn (ln ld hn hd : Int) : Int × Int :=
  if ln ≤ 0 ∧ 0 ≤ hn then (0, 1)
  else if 0 < ln then simplestPos 128 ln ld hn hd
  else
    let pr := simplestPos 128 (-hn) hd (-ln) ld
    (-pr.1, pr.2)

/-- `Scm_Exact` (number.c:1714-1739).  Integral flonums convert
exactly.  Modelled from the spec: the fractional branch delegates to
the host procedure `real->rational` (lib/gauche/numerical.scm, not
under src/), which the spec describes as "the simplest rational number
within the precision of IEEE double floating point number", i.e. in
the half-ulp interval around the value. -/
def scm_Exact (x : SNum) : Except RtErr SNum :=
  match x with
  | .int _ => .ok x
  | .rat _ _ => .ok x
  | .comp _ _ => .error .exactInfNan
  | .flo f =>
    match f with
    | .nan => .error .exactInfNan
    | .inf _ => .error .exactInfNan
    | .fin neg m e =>
      if 0 ≤ e ∨ m % (1 <<< (-e).toNat) = 0 then .ok (.int (flonumToInt f))
      else
        let den : Int := ((1 <<< (1 - e).toNat : Nat) : Int)
        let lo : Int := if neg then -(2 * m + 1) else 2 * m - 1
        let hi : Int := if neg then -(2 * m - 1) else 2 * m + 1
        let pr := simplestIn lo den hi den
        if pr.2 = 1 then .ok (.int pr.1) else .ok (.rat pr.1 pr.2)

/-- `scm_div` (number.c:2184-2425), flavors selected by `inexact` and
`compat` exactly as in the source.  The labels `ratnum_return`,
`compat_return`, `inexact_return`, `anormal`, `anormal_comp` and
`do_complex` become the helper definitions below.  Fixnums and bignums
are merged: the fixnum-only shortcut tests (`== 0`, `== 1`) never fire
on bignum-sized values, and the merged inexact path keeps the
`SCM_IS_INF` fallback of the bignum path, which is unreachable for
fixnum operands (their conversion is always finite). -/
def scm_div (arg0 arg1 : SNum) (inexact compat : Bool) : Except RtErr SNum :=
  match arg0, arg1 with
  | .int a, .int b =>
    if b = 0 then
      (if inexact then anormal arg0 arg1 else .error .divByZero)
    else if a = 0 then simpleReturn arg0 inexact
    else if b = 1 then simpleReturn arg0 inexact
    else if compat then
      (if a.tmod b = 0 then .ok (.int (a.tdiv b))
       else .ok (.flo ((getDoubleInt a).fdiv (getDoubleInt b))))
    else if inexact then inexactReturn a b
    else scm_MakeRational (.int a) (.int b)
  | .int a, .rat n d => ratnumReturn (a * d) n inexact compat
  | .int a, .flo g =>
    if g.isZero then anormal arg0 arg1
    else .ok (.flo ((getDoubleInt a).fdiv g))
  | .int _, .comp r1 i1 => doComplex arg0 r1 i1
  | .rat n d, .int b =>
    if b = 0 then
      (if inexact then anormal arg0 arg1 else .error .divByZero)
    else if b = 1 then simpleReturn arg0 inexact
    else ratnumReturn n (d * b) inexact compat
  | .rat n0 d0, .rat n1 d1 =>
    if ¬compat ∧ ¬inexact then scm_RatnumMulDiv arg0 arg1 true
    else ratnumReturn (n0 * d1) (d0 * n1) inexact compat
  | .rat _ _, .flo g =>
    if g.isZero then anormal arg0 arg1
    else do
      let z ← getDouble arg0
      .ok (.flo (z.fdiv g))
  | .rat _ _, .comp r1 i1 => doComplex arg0 r1 i1
  | .flo f, .int b =>
    if f.isNaN then .ok (.flo .nan)
    else if b = 0 then anormal arg0 arg1
    else if b = 1 then .ok arg0
    else .ok (.flo (f.fdiv (getDoubleInt b)))
  | .flo f, .rat _ _ => do
    let z ← getDouble arg1
    .ok (.flo (f.fdiv z))
  | .flo f, .flo g =>
    if f.isNaN then .ok (.flo .nan)
    else if g.isZero then anormal arg0 arg1
    else .ok (.flo (f.fdiv g))
  | .flo _, .comp r1 i1 => doComplex arg0 r1 i1
  | .comp r0 i0, .int b =>
    if b = 0 then anormalComp r0 i0 arg1
    else if b = 1 then .ok arg0
    else .ok (makeComplex (r0.fdiv (getDoubleInt b)) (i0.fdiv (getDoubleInt b)))
  | .comp r0 i0, .rat _ _ => do
    let z ← getDouble arg1
    .ok (makeComplex (r0.fdiv z) (i0.fdiv z))
  | .comp r0 i0, .flo g =>
    if g.isZero then anormalComp r0 i0 arg1
    else .ok (makeComplex (r0.fdiv g) (i0.fdiv g))
  | .comp r0 i0, .comp r1 i1 =>
    let d := (r1.fmul r1).fadd (i1.fmul i1)
    .ok (makeComplex (((r0.fmul r1).fadd (i0.fmul i1)).fdiv d)
                     (((i0.fmul r1).fsub (r0.fmul i1)).fdiv d))
where
  /-- `simple_return` (number.c:2381-2385). -/
  simpleReturn (r : SNum) (inexact : Bool) : Except RtErr SNum :=
    if inexact then scm_Inexact r else .ok r
  /-- `inexact_return` (number.c:2369-2380), on exact integers. -/
  inexactReturn (a0 a1 : Int) : Except RtErr SNum :=
    let numer := getDoubleInt a0
    let denom := getDoubleInt a1
    if numer.isInf ∨ denom.isInf then do
      let r ← scm_MakeRational (.int a0) (.int a1)
      let z ← getDouble r
      .ok (.flo z)
    else .ok (.flo (numer.fdiv denom))
  /-- `compat_return` (number.c:2357-2368) falling through to
  `inexact_return`. -/
  compatReturn (a0 a1 : Int) : Except RtErr SNum :=
    if a0.tmod a1 = 0 then .ok (.int (a0.tdiv a1))
    else inexactReturn a0 a1
  /-- `ratnum_return` (number.c:2350-2356), on exact integers. -/
  ratnumReturn (a0 a1 : Int) (inexact compat : Bool) : Except RtErr SNum :=
    if compat then
      (if a1 = 0 then .error .divByZero else compatReturn a0 a1)
    else if inexact then inexactReturn a0 a1
    else scm_MakeRational (.int a0) (.int a1)
  /-- `anormal` (number.c:2390-2398): real division by an inexact (or,
  for flonum dividends, exact) zero. -/
  anormal (a0 a1 : SNum) : Except RtErr SNum :=
    let s0 := scm_Sign a0
    let s1 : Int := match a1 with
      | .flo g => flonumSign g
      | _ => 1
    if s0 = 0 then .ok (.flo .nan)
    else if s0 * s1 < 0 then .ok (.flo (.inf true))
    else .ok (.flo (.inf false))
  /-- `anormal_comp` (number.c:2399-2416).  `r0*s1` multiplies a double
  by the C int `s1 ∈ {-1,1}`, an exact sign flip, so its sign tests
  reduce to sign tests on `r0`. -/
  anormalComp (r0 i0 : F64) (a1 : SNum) : Except RtErr SNum :=
    let s1 : Int := match a1 with
      | .flo g => flonumSign g
      | _ => 1
    let part (c : F64) : F64 :=
      if c.isNaN then .nan
      else if (if s1 = 1 then c.fgt F64.pz else c.flt F64.pz) then .inf false
      else if (if s1 = 1 then c.flt F64.pz else c.fgt F64.pz) then .inf true
      else .nan
    .ok (makeComplex (part r0) (part i0))
  /-- `do_complex` (number.c:2417-2424). -/
  doComplex (a0 : SNum) (r1 i1 : F64) : Except RtErr SNum := do
    let z ← getDouble a0
    let d := (r1.fmul r1).fadd (i1.fmul i1)
    .ok (makeComplex ((r1.fmul z).fdiv d) (((i1.fneg).fmul z).fdiv d))

/-! ## Three-way comparison: `Scm_NumCmp` -/

/-- The C double literal `2.0e-52` (number.c:3016): the binary64 value
nearest to `2·10^-52`. -/
def c2em52 : F64 := roundSci false 2 (10 ^ 52) 0

/-- `Scm_NumCmp` (number.c:2980-3105) with an explicit recursion-depth
fuel.  The source recursion always moves to a strictly simpler kind
pair (the longest chain, flonum-vs-ratnum through `Scm_Exact` and the
ratnum-vs-ratnum screens down to integers, has depth 5), so any fuel of
at least 6 computes the function; the top entry uses 8.  Merged-integer
notes: the fixnum/fixnum branch is the sign of the machine difference
and the bignum branches are `Scm_BignumCmp`, both the integer ordering;
in the fixnum-vs-flonum branch the `double_precision` refinement (under
`#if SIZEOF_LONG >= 8`) fires exactly on values above 53 bits, and its
absence for bignums is equivalent because a bignum always spans more
than 53 bits on 64-bit words.  The ratnum-vs-fixnum zero shortcut at
number.c:3007 (`SCM_EQ(SCM_INT_VALUE(0), arg0)`) compares the raw
machine word 0 against a tagged object and is never true; the dead
branch is omitted. -/
def numCmp : Nat → SNum → SNum → Except RtErr Int
  | 0, _, _ => .error .typeErr
  | fuel+1, arg0, arg1 =>
    match arg0, arg1 with
    | .int a, .int b => .ok (Int.sign (a - b))
    | .int a, .flo g =>
      let r := (getDoubleInt a).fsub g
      if r.flt F64.pz then .ok (-1)
      else if r.fgt F64.pz then .ok 1
      else if doublePrecision a = false then do
        let e ← scm_Exact (.flo g)
        numCmp fuel (.int a) e
      else .ok 0
    | .int a, .rat n d => do
      let y ← getDouble (.rat n d)
      let r := (getDoubleInt a).fsub y
      let err := y.fmul c2em52
      if r.flt err.fneg then .ok (-1)
      else if r.fgt err then .ok 1
      else numCmp fuel (.int (a * d)) (.int n)
    | .int _, .comp _ _ => .error .typeErr
    | .flo f, .int b =>
      let r := f.fsub (getDoubleInt b)
      if r.flt F64.pz then .ok (-1)
      else if r.fgt F64.pz then .ok 1
      else if doublePrecision b = false then do
        let e ← scm_Exact (.flo f)
        numCmp fuel e (.int b)
      else .ok 0
    | .flo f, .flo g =>
      let r := f.fsub g
      if r.flt F64.pz then .ok (-1)
      else if r.fgt F64.pz then .ok 1
      else .ok 0
    | .flo f, .rat n d =>
      if f.isInf then .ok (scm_Sign (.flo f))
      else do
        let y ← getDouble (.rat n d)
        let r := f.fsub y
        if r.flt F64.pz then .ok (-1)
        else if r.fgt F64.pz then .ok 1
        else do
          let e ← scm_Exact (.flo f)
          numCmp fuel e (.rat n d)
    | .flo _, .comp _ _ => .error .typeErr
    | .rat _ _, .int _ => do
      let c ← numCmp fuel arg1 arg0
      .ok (-c)
    | .rat _ _, .flo _ => do
      let c ← numCmp fuel arg1 arg0
      .ok (-c)
    | .rat n0 d0, .rat n1 d1 =>
      let s0 := Int.sign n0
      let s1 := Int.sign n1
      if s0 < s1 then .ok (-1)
      else if s1 < s0 then .ok 1
      else do
        let dcmp ← numCmp fuel (.int d0) (.int d1)
        if dcmp = 0 then numCmp fuel (.int n0) (.int n1)
        else if (0 < s0 ∧ 0 < s1) ∨ (s0 < 0 ∧ s1 < 0) then do
          let nc ← numCmp fuel (.int n0) (.int n1)
          let n := nc * s0
          if 0 < dcmp ∧ n ≤ 0 then .ok (-s0)
          else if dcmp < 0 ∧ 0 ≤ n then .ok s0
          else numCmp fuel (.int (n0 * d1)) (.int (n1 * d0))
        else numCmp fuel (.int (n0 * d1)) (.int (n1 * d0))
    | .rat _ _, .comp _ _ => .error .typeErr
    | .comp _ _, _ => .error .typeErr

/-- Entry point of `Scm_NumCmp` with sufficient fuel. -/
def scm_NumCmp (x y : SNum) : Except RtErr Int := numCmp 8 x y

/-! ## The number reader: `read_real` (number.c:4460-4646)

The reader is embedded over `List Char`.  The parse context carries the
fields of `struct numread_packet` (number.c:4230-4241) that `read_real`
and `read_uint` consult.  `numread_error` (number.c:4794-4802) raises
when `throwerror` is set and otherwise yields `SCM_FALSE`; the result
type `RdOut` keeps the three outcomes apart. -/

inductive Exactness where
  | noexact
  | exact
  | inexact
deriving DecidableEq, Repr

structure RdCtx where
  radix : Nat
  exactness : Exactness
  padread : Bool
  explicitP : Bool
  strict : Bool
  throwerror : Bool
deriving DecidableEq, Repr

inductive RdOut where
  | num (x : SNum)
  | rfalse
  | rerror
deriving DecidableEq, Repr

/-- Digit value of a decimal digit character. -/
def digV (c : Char) : Int := (c.toNat : Int) - 48

/-- The accumulation loop of `read_uint` (number.c:4296-4334),
specialized to radix 10.  The word-sized accumulator with periodic
bignum flushes (`value_int`, `value_big`, `Scm_BignumAccMultAddUI`)
computes the plain decimal value, which is accumulated directly here;
the leading-zero skip (number.c:4290-4294) consumes the same characters
as the digit branch and leaves the same value 0, so it needs no
separate case.  A `_` is skipped when an explicit prefix was seen and
strict mode is off; a `#` after at least one digit reads as 0, sets
`padread`, and flips default exactness to inexact. -/
def readUIntLoop : List Char → RdCtx → Bool → Int → (Int × List Char × RdCtx)
  | [], ctx, _, v => (v, [], ctx)
  | c :: rest, ctx, digread, v =>
    let cl := c.toLower
    if ctx.explicitP ∧ ¬ctx.strict ∧ cl = '_' then readUIntLoop rest ctx digread v
    else if ctx.padread then
      (if cl = '#' then readUIntLoop rest ctx digread (v * 10)
       else (v, c :: rest, ctx))
    else if digread ∧ cl = '#' then
      let ctx' : RdCtx :=
        { radix := ctx.radix, exactness := if ctx.exactness = .noexact then .inexact else ctx.exactness,
          padread := true, explicitP := ctx.explicitP, strict := ctx.strict,
          throwerror := ctx.throwerror }
      readUIntLoop rest ctx' digread (v * 10)
    else if cl.isDigit then readUIntLoop rest ctx true (v * 10 + digV cl)
    else (v, c :: rest, ctx)

/-- `read_uint` (number.c:4265-4345) for radix 10: `initval` is the
value read so far (used when reading the fractional digit run). -/
def readUInt (s : List Char) (ctx : RdCtx) (initval : Option Int) : Int × List Char × RdCtx :=
  readUIntLoop s ctx initval.isSome (initval.getD 0)

/-- The exponent digit loop of `read_real` (number.c:4568-4580): every
digit is consumed, but accumulation stops once the running value has
reached `MAX_EXPONENT = 325` (number.c:74), recorded in the overflow
flag. -/
def readExpDigits : List Char → Int → Bool → (Int × Bool × List Char)
  | [], e, ov => (e, ov, [])
  | c :: rest, e, ov =>
    if c.isDigit then
      if ov then readExpDigits rest e ov
      else
        let e' := e * 10 + digV c
        readExpDigits rest e' (decide (325 ≤ e'))
    else (e, ov, c :: rest)

/-- `numread_error`: error when `throwerror`, otherwise `SCM_FALSE`. -/
def rdErr (ctx : RdCtx) : RdOut := if ctx.throwerror then .rerror else .rfalse

/-- The inexact composition of `read_real` (number.c:4612-4645).
Collapsed to its specification: `raise_pow10` plus Clinger's
`algorithmR` (number.c:4354-4458) deliver the correctly rounded
binary64 of `fraction · 10^raise` (the claims below only exercise the
exponent-overflow branch, which returns before this point). -/
def composeInexact (minusp : Bool) (fraction : Int) (raise : Int) : SNum :=
  if 0 ≤ raise then .flo (roundSci minusp (fraction.toNat * 10 ^ raise.toNat) 1 0)
  else .flo (roundSci minusp fraction.toNat (10 ^ (-raise).toNat) 0)

/-- The exact composition of `read_real` (number.c:4602-4610):
`fraction · 10^(exponent - fracdigs)` through `Scm_ExactIntegerExpt`
(an exact integer power, with a negative exponent inverting into a
ratnum) and exact multiplication. -/
def composeExact (minusp : Bool) (fraction : Int) (raise : Int) : RdOut :=
  let f := if minusp then -fraction else fraction
  if 0 ≤ raise then .num (.int (f * 10 ^ raise.toNat))
  else
    match scm_MakeRational (.int f) (.int (10 ^ (-raise).toNat)) with
    | .ok r => .num r
    | .error _ => .rerror

/-- `read_real` (number.c:4460-4646), radix-10 paths.  Returns the
outcome together with the unconsumed input and the updated context. -/
def readReal (s0 : List Char) (ctx0 : RdCtx) : RdOut × List Char × RdCtx :=
  let minusp := s0.head? = some '-'
  let signSeen := s0.head? = some '-' ∨ s0.head? = some '+'
  let s1 := if signSeen then s0.drop 1 else s0
  if s1.isEmpty then (.rfalse, s1, ctx0)
  else if signSeen ∧ (s1.take 5).map Char.toLower = String.toList "inf.0" then
    (.num (.flo (.inf minusp)), s1.drop 5, ctx0)
  else if signSeen ∧ (s1.take 5).map Char.toLower = String.toList "nan.0" then
    (.num (.flo .nan), s1.drop 5, ctx0)
  else if s1.head? ≠ some '.' then
    -- integral part present
    let rdi := readUInt s1 ctx0 none
    let intpart := rdi.1
    let s2 := rdi.2.1
    let ctx1 := rdi.2.2
    if s2.isEmpty then
      let v := if minusp then -intpart else intpart
      if ctx1.exactness = .inexact then (.num (.flo (getDoubleInt v)), s2, ctx1)
      else (.num (.int v), s2, ctx1)
    else if s2.head? = some '/' then
      if s2.length ≤ 1 ∨ s1.length = s2.length then (.rfalse, s2, ctx1)
      else
        let s2' := s2.drop 1
        let rdd := readUInt s2' ctx1 none
        let denom := rdd.1
        let s3 := rdd.2.1
        let ctx2 := rdd.2.2
        if denom = 0 then
          if s3.length < s2'.length then
            if ctx2.exactness ≠ .inexact then (rdErr ctx2, s3, ctx2)
            else if intpart = 0 then (.num (.flo .nan), s3, ctx2)
            else (.num (.flo (.inf minusp)), s3, ctx2)
          else (.rfalse, s3, ctx2)
        else
          let v := if minusp then -intpart else intpart
          if ctx2.exactness = .inexact then
            match scm_div (.int v) (.int denom) false false with
            | .ok r =>
              match scm_Inexact r with
              | .ok r2 => (.num r2, s3, ctx2)
              | .error _ => (.rerror, s3, ctx2)
            | .error _ => (.rerror, s3, ctx2)
          else
            match scm_MakeRational (.int v) (.int denom) with
            | .ok r => (.num r, s3, ctx2)
            | .error _ => (.rerror, s3, ctx2)
    else readRealTail minusp (some intpart) s1.length s2 ctx1
  else readRealTail minusp none s1.length s1 ctx0
where
  /-- Fraction, exponent and composition (number.c:4538-4645); `markLen`
  is the input length right after the sign, to express the
  `mark == *strp` no-progress test. -/
  readRealTail (minusp : Bool) (intpart : Option Int) (markLen : Nat)
      (s : List Char) (ctx : RdCtx) : RdOut × List Char × RdCtx :=
    let hasDot := s.head? = some '.'
    if hasDot ∧ ctx.radix ≠ 10 then (rdErr ctx, s, ctx)
    else
      let sdot := if hasDot then s.drop 1 else s
      let rdf := if hasDot then readUInt sdot ctx intpart
                 else (intpart.getD 0, s, ctx)
      let fraction := rdf.1
      let s4 := rdf.2.1
      let ctx3 := rdf.2.2
      let fracdigs : Int := if hasDot then (sdot.length : Int) - s4.length else 0
      if intpart = none ∧ fracdigs = 0 then (.rfalse, s4, ctx3)
      else if s4.length = markLen then (.rfalse, s4, ctx3)
      else
        -- exponent part
        let hasExp := match s4.head? with
          | some c => (String.toList "eEsSfFdDlL").contains c
          | none => false
        if hasExp then
          let se := s4.drop 1
          if se.isEmpty then (.rfalse, se, ctx3)
          else
            let expMinusp := se.head? = some '-'
            let expSign := se.head? = some '-' ∨ se.head? = some '+'
            let se2 := if expSign then se.drop 1 else se
            if expSign ∧ se2.isEmpty then (.rfalse, se2, ctx3)
            else
              let red := readExpDigits se2 0 false
              let exponent := if expMinusp then -red.1 else red.1
              let s5 := red.2.2
              if red.2.1 then
                -- exp_overflow (number.c:4583-4597)
                if ctx3.exactness = .exact then (rdErr ctx3, s5, ctx3)
                else if expMinusp ∨ fraction = 0 then
                  (.num (.flo (.fin minusp 0 (-1074))), s5, ctx3)
                else (.num (.flo (.inf minusp)), s5, ctx3)
              else
                if ctx3.exactness = .exact then
                  (composeExact minusp fraction (exponent - fracdigs), s5, ctx3)
                else (.num (composeInexact minusp fraction (exponent - fracdigs)), s5, ctx3)
        else
          if ctx3.exactness = .exact then
            (composeExact minusp fraction (0 - fracdigs), s4, ctx3)
          else (.num (composeInexact minusp fraction (0 - fracdigs)), s4, ctx3)

/-! ## Claim theorems -/

set_option exponentiation.threshold 4000

/-- C1: the claim states that `Scm_GetDouble` on every canonical Ratnum
returns the binary64 value nearest to the exact rational, ties to even.
This fails in the deep subnormal range: for `n/d = (2^49+9)/2^1078`
(canonical: odd numerator, power-of-two denominator), the code masks
the quotient below the denormal boundary (number.c:1428-1437), loses
the sticky bits, and the final `ldexp` resolves an apparent tie
downward to the even mantissa `35184372088832·2^-1074`, although the
true value lies strictly above the midpoint and the nearest double is
`35184372088833·2^-1074` (the distances scaled by `2^1078` are 9 versus
7).  `roundSci` (this file's round-to-nearest) confirms the nearest
value, and the embedded algorithm returns the other one. -/
theorem c1_getDouble_subnormal_bug :
    getDouble (.rat (2 ^ 49 + 9) ((2 ^ 1078 : Nat) : Int)) =
      .ok (.fin false 35184372088832 (-1074))
    ∧ roundSci false (2 ^ 49 + 9) (2 ^ 1078) 0 = .fin false 35184372088833 (-1074)
    ∧ (2 ^ 49 + 9) - 16 * 35184372088832 = (9 : Int)
    ∧ 16 * 35184372088833 - (2 ^ 49 + 9) = (7 : Int)
    ∧ Int.gcd (2 ^ 49 + 9) ((2 ^ 1078 : Nat) : Int) = 1
    ∧ (1 : Int) < ((2 ^ 1078 : Nat) : Int) := by
  refine ⟨rfl, rfl, by decide, by decide, by decide, by decide⟩

/-- C3: the claim states that `Scm_NumCmp` returns the sign of the
exact difference for all finite mixed reals, with the rough-screen
tolerance `err = |y|·2^-52`.  The code computes `err = y * 2.0e-52`
(number.c:3016) — the sign of `y` is kept and the constant is the
decimal `2·10^-52` — so for a negative ratnum whose rounded double
equals the fixnum operand the screen `r < -err` fires on `r = 0` and
returns -1 even though the exact difference is positive:
`x = -1`, `y = -(3·2^52+1)/(3·2^52)`, where `x - y = 1/(3·2^52) > 0`
but the code answers -1. -/
theorem c3_numCmp_sign_bug :
    scm_NumCmp (.int (-1)) (.rat (-13510798882111489) 13510798882111488) = .ok (-1)
    ∧ (-1 : Int) * 13510798882111488 - (-13510798882111489) = 1
    ∧ Int.gcd (-13510798882111489) 13510798882111488 = 1
    ∧ (1 : Int) < 13510798882111488 := by
  refine ⟨rfl, by decide, by decide, by decide⟩

/-- C10: `Scm_GetDouble` on an argument that is none of Fixint, Bignum,
Ratnum or Flonum falls through every branch and silently returns `0.0`
(number.c:1485); within the numeric tower that argument is a Compnum. -/
theorem c10_getDouble_compnum_zero (re im : F64) :
    getDouble (.comp re im) = .ok F64.pz := rfl

/-! ### Truncated and floored division facts -/

theorem succ_mod (a c : Nat) (hc : 0 < c) :
    (a + 1) % c = if a % c + 1 = c then 0 else a % c + 1 := by
  have hdm : c * (a / c) + a % c = a := Nat.div_add_mod a c
  have hml : a % c < c := Nat.mod_lt a hc
  have hrew : a + 1 = (a % c + 1) + c * (a / c) := by omega
  rw [hrew, Nat.add_mul_mod_self_left]
  by_cases h : a % c + 1 = c
  · rw [if_pos h, h, Nat.mod_self]
  · rw [if_neg h, Nat.mod_eq_of_lt (by omega)]

theorem tmod_bound (x y : Int) (hy : y ≠ 0) : (x.tmod y).natAbs < y.natAbs := by
  rcases x with a | a <;> rcases y with b | b
  · have hb : 0 < b := by
      rcases Nat.eq_zero_or_pos b with h | h
      · exact absurd (by simp [h]) hy
      · exact h
    simpa [Int.tmod] using Nat.mod_lt a hb
  · simpa [Int.tmod] using Nat.mod_lt a (Nat.succ_pos b)
  · have hb : 0 < b := by
      rcases Nat.eq_zero_or_pos b with h | h
      · exact absurd (by simp [h]) hy
      · exact h
    simpa [Int.tmod] using Nat.mod_lt (a+1) hb
  · simpa [Int.tmod] using Nat.mod_lt (a+1) (Nat.succ_pos b)

theorem tmod_sign (x y : Int) : x.tmod y = 0 ∨ (x.tmod y).sign = x.sign := by
  have aux1 : ∀ a c : Nat, (Int.ofNat (a % c) = 0) ∨
      (Int.ofNat (a % c)).sign = (Int.ofNat a).sign := by
    intro a c
    rcases Nat.eq_zero_or_pos (a % c) with h | h
    · left
      simp [h]
    · right
      have ha : 0 < a := lt_of_lt_of_le h (Nat.mod_le a c)
      have h1 : (0:Int) < Int.ofNat (a % c) := by
        rw [Int.ofNat_eq_coe]
        exact_mod_cast h
      have h2 : (0:Int) < Int.ofNat a := by
        rw [Int.ofNat_eq_coe]
        exact_mod_cast ha
      rw [Int.sign_eq_one_iff_pos.2 h1, Int.sign_eq_one_iff_pos.2 h2]
  have aux2 : ∀ a c : Nat, (-(Int.ofNat ((a+1) % c)) = 0) ∨
      (-(Int.ofNat ((a+1) % c))).sign = (Int.negSucc a).sign := by
    intro a c
    rcases Nat.eq_zero_or_pos ((a+1) % c) with h | h
    · left
      simp [h]
    · right
      have h1 : -(Int.ofNat ((a+1) % c)) < 0 := by
        have hp : (0:Int) < ((a+1) % c : Nat) := by exact_mod_cast h
        rw [Int.ofNat_eq_coe]
        omega
      rw [Int.sign_eq_neg_one_iff_neg.2 h1,
          Int.sign_eq_neg_one_iff_neg.2 (Int.negSucc_lt_zero a)]
  rcases x with a | a <;> rcases y with b | b
  · exact aux1 a b
  · exact aux1 a (b+1)
  · exact aux2 a b
  · exact aux2 a (b+1)

theorem fmod_from_tmod (x y : Int) (hy : y ≠ 0) :
    x.fmod y = if x.tmod y ≠ 0 ∧ ((0 < x ∧ y < 0) ∨ (x < 0 ∧ 0 < y)) then x.tmod y + y
               else x.tmod y := by
  rcases x with a | a <;> rcases y with b | b
  · rcases a with _ | a
    · simp [Int.fmod, Int.tmod]
    · have hc : ¬ ((Int.ofNat (a+1)).tmod (Int.ofNat b) ≠ 0 ∧
          ((0 < Int.ofNat (a+1) ∧ Int.ofNat b < 0) ∨
           (Int.ofNat (a+1) < 0 ∧ 0 < Int.ofNat b))) := by
        rintro ⟨-, h | h⟩ <;> simp only [Int.ofNat_eq_coe] at h <;> omega
      rw [if_neg hc]
      simp [Int.fmod, Int.tmod]
  · rcases a with _ | a
    · simp [Int.fmod, Int.tmod]
    · have hmt : (Int.ofNat (a+1)).tmod (Int.negSucc b) = Int.ofNat ((a+1) % (b+1)) := rfl
      have hmf : (Int.ofNat (a+1)).fmod (Int.negSucc b) = Int.subNatNat (a % (b+1)) b := rfl
      rw [hmt, hmf, Int.subNatNat_eq_coe]
      have hsm := succ_mod a (b+1) (Nat.succ_pos b)
      have hml : a % (b+1) < b + 1 := Nat.mod_lt a (Nat.succ_pos b)
      by_cases h : a % (b+1) + 1 = b + 1
      · rw [if_pos h] at hsm
        rw [if_neg (by simp [hsm]), hsm]
        have hab : a % (b+1) = b := by omega
        rw [hab]
        simp
      · rw [if_neg h] at hsm
        have hpos0 : (0:Int) < Int.ofNat ((a+1) % (b+1)) := by
          rw [hsm, Int.ofNat_eq_coe]
          exact_mod_cast Nat.succ_pos (a % (b+1))
        have hone : Int.ofNat ((a+1) % (b+1)) ≠ 0 := hpos0.ne' 
        have htwo : (0:Int) < Int.ofNat (a+1) := by
          rw [Int.ofNat_eq_coe]
          exact_mod_cast Nat.succ_pos a
        rw [if_pos ⟨hone, Or.inl ⟨htwo, Int.negSucc_lt_zero b⟩⟩, hsm]
        generalize a % (b+1) = r
        simp only [Int.ofNat_eq_coe, Int.negSucc_eq]
        push_cast
        omega
  · rcases Nat.eq_zero_or_pos b with hb | hb
    · exact absurd (by simp [hb]) hy
    · obtain ⟨b', rfl⟩ : ∃ b', b = b' + 1 := ⟨b - 1, by omega⟩
      have hmt : (Int.negSucc a).tmod (Int.ofNat (b'+1)) = -Int.ofNat ((a+1) % (b'+1)) := rfl
      have hmf : (Int.negSucc a).fmod (Int.ofNat (b'+1)) =
          Int.subNatNat (b'+1) ((a % (b'+1)) + 1) := rfl
      rw [hmt, hmf, Int.subNatNat_eq_coe]
      have hsm := succ_mod a (b'+1) (Nat.succ_pos b')
      have hml : a % (b'+1) < b' + 1 := Nat.mod_lt a (Nat.succ_pos b')
      by_cases h : a % (b'+1) + 1 = b' + 1
      · rw [if_pos h] at hsm
        rw [if_neg (by simp [hsm]), hsm]
        have hab : a % (b'+1) = b' := by omega
        rw [hab]
        simp
      · rw [if_neg h] at hsm
        have hpos0 : (0:Int) < Int.ofNat ((a+1) % (b'+1)) := by
          rw [hsm, Int.ofNat_eq_coe]
          exact_mod_cast Nat.succ_pos (a % (b'+1))
        have hone : -Int.ofNat ((a+1) % (b'+1)) ≠ 0 := neg_ne_zero.mpr hpos0.ne' 
        have htwo : (0:Int) < Int.ofNat (b'+1) := by
          rw [Int.ofNat_eq_coe]
          exact_mod_cast Nat.succ_pos b'
        rw [if_pos ⟨hone, Or.inr ⟨Int.negSucc_lt_zero a, htwo⟩⟩, hsm]
        generalize a % (b'+1) = r
        simp only [Int.ofNat_eq_coe, Int.negSucc_eq]
        push_cast
        omega
  · have hmt : (Int.negSucc a).tmod (Int.negSucc b) = -Int.ofNat ((a+1) % (b+1)) := rfl
    have hmf : (Int.negSucc a).fmod (Int.negSucc b) = -Int.ofNat ((a+1) % (b+1)) := rfl
    have hc : ¬ ((Int.negSucc a).tmod (Int.negSucc b) ≠ 0 ∧
        ((0 < Int.negSucc a ∧ Int.negSucc b < 0) ∨
         (Int.negSucc a < 0 ∧ 0 < Int.negSucc b))) := by
      rintro ⟨-, h | h⟩ <;> simp only [Int.negSucc_eq] at h <;> omega
    rw [if_neg hc, hmt, hmf]

theorem fmod_sign (x y : Int) (hy : y ≠ 0) : x.fmod y = 0 ∨ (x.fmod y).sign = y.sign := by
  have hb := tmod_bound x y hy
  have hs := tmod_sign x y
  rw [fmod_from_tmod x y hy]
  by_cases h : x.tmod y ≠ 0 ∧ ((0 < x ∧ y < 0) ∨ (x < 0 ∧ 0 < y))
  · rw [if_pos h]
    obtain ⟨hne, hcase⟩ := h
    rcases hs with h0 | hsgn
    · exact absurd h0 hne
    right
    rcases hcase with ⟨hx, hyneg⟩ | ⟨hx, hypos⟩
    · rw [Int.sign_eq_one_iff_pos.2 hx] at hsgn
      have htpos : 0 < x.tmod y := Int.sign_eq_one_iff_pos.1 hsgn
      have hlt : x.tmod y + y < 0 := by omega
      rw [Int.sign_eq_neg_one_iff_neg.2 hlt, Int.sign_eq_neg_one_iff_neg.2 hyneg]
    · rw [Int.sign_eq_neg_one_iff_neg.2 hx] at hsgn
      have htneg : x.tmod y < 0 := Int.sign_eq_neg_one_iff_neg.1 hsgn
      have hgt : 0 < x.tmod y + y := by omega
      rw [Int.sign_eq_one_iff_pos.2 hgt, Int.sign_eq_one_iff_pos.2 hypos]
  · rw [if_neg h]
    by_cases h0 : x.tmod y = 0
    · exact Or.inl h0
    right
    have hB : ¬ ((0 < x ∧ y < 0) ∨ (x < 0 ∧ 0 < y)) := fun hb2 => h ⟨h0, hb2⟩
    rcases hs with hse | hsgn
    · exact absurd hse h0
    rw [hsgn]
    rcases Int.lt_trichotomy x 0 with hx | hx | hx
    · have hyneg : y < 0 := by
        rcases Int.lt_trichotomy y 0 with h1 | h1 | h1
        · exact h1
        · exact absurd h1 hy
        · exact absurd (Or.inr ⟨hx, h1⟩) hB
      rw [Int.sign_eq_neg_one_iff_neg.2 hx, Int.sign_eq_neg_one_iff_neg.2 hyneg]
    · refine absurd ?_ h0
      rw [hx]
      exact Int.zero_tmod y
    · have hypos : 0 < y := by
        rcases Int.lt_trichotomy y 0 with h1 | h1 | h1
        · exact absurd (Or.inl ⟨hx, h1⟩) hB
        · exact absurd h1 hy
        · exact h1
      rw [Int.sign_eq_one_iff_pos.2 hx, Int.sign_eq_one_iff_pos.2 hypos]

/-- C5: `Scm_Quotient` on exact integers is truncated (toward zero)
division — the remainder satisfies `x = q·y + rem`, is smaller than the
divisor in magnitude, and carries the sign of the dividend — while
`Scm_Modulo` with `remp = false` is the floored modulo (sign follows
the divisor) and with `remp = true` the truncated remainder (sign
follows the dividend). -/
theorem c5_quotient_modulo (x y : Int) (hy : y ≠ 0) :
    scm_Quotient (.int x) (.int y) = .ok (.int (x.tdiv y), .int (x.tmod y))
    ∧ y * x.tdiv y + x.tmod y = x
    ∧ (x.tmod y = 0 ∨ (x.tmod y).sign = x.sign)
    ∧ (x.tmod y).natAbs < y.natAbs
    ∧ scm_Modulo (.int x) (.int y) false = .ok (.int (x.fmod y))
    ∧ (x.fmod y = 0 ∨ (x.fmod y).sign = y.sign)
    ∧ scm_Modulo (.int x) (.int y) true = .ok (.int (x.tmod y)) := by
  refine ⟨?_, Int.tdiv_add_tmod x y, tmod_sign x y, tmod_bound x y hy, ?_, fmod_sign x y hy, ?_⟩
  · by_cases h1 : y = 1
    · subst h1
      simp [scm_Quotient, integerP]
    · have hne : (SNum.int y) ≠ SNum.int 1 := by
        simpa using h1
      simp only [scm_Quotient, if_neg hne, if_neg hy]
  · simp only [scm_Modulo, if_neg hy, Bool.false_eq_true, not_false_eq_true, true_and]
    rw [fmod_from_tmod x y hy]
    split_ifs with h1
    · rfl
    · rfl
  · simp [scm_Modulo, if_neg hy]

/-- Witness for C5 at the claim's own example: quotient and the two
modulo flavors of `(7, -2)`. -/
theorem c5_witness :
    scm_Quotient (.int 7) (.int (-2)) = .ok (.int (-3), .int 1)
    ∧ scm_Modulo (.int 7) (.int (-2)) false = .ok (.int (-1))
    ∧ scm_Modulo (.int 7) (.int (-2)) true = .ok (.int 1) := by
  obtain ⟨h1, -, -, -, h2, -, h3⟩ := c5_quotient_modulo 7 (-2) (by decide)
  refine ⟨?_, ?_, ?_⟩
  · rw [h1]
    decide
  · rw [h2]
    decide
  · rw [h3]
    decide

/-! ### Canonicity of `Scm_MakeRational` -/

theorem makeRational_spec (n d : Int) (hd : d ≠ 0) :
    ∃ r, scm_MakeRational (.int n) (.int d) = .ok r ∧ r.exactP = true ∧ r.valid
         ∧ r.toQ = (n : ℚ) / (d : ℚ) := by
  simp only [scm_MakeRational]
  rw [if_neg hd]
  by_cases hd1 : d = 1
  · subst hd1
    rw [if_pos rfl]
    exact ⟨.int n, rfl, rfl, trivial, by simp [SNum.toQ]⟩
  · rw [if_neg hd1]
    by_cases hn0 : n = 0
    · subst hn0
      rw [if_pos rfl]
      exact ⟨.int 0, rfl, rfl, trivial, by simp [SNum.toQ]⟩
    · rw [if_neg hn0]
      simp only [scm_ReduceRational]
      set n' := if d < 0 then -n else n with hn'
      set d' := if d < 0 then -d else d with hd'
      have hd'pos : 0 < d' := by
        rw [hd']
        split_ifs with h
        · omega
        · omega
      have hn'0 : n' ≠ 0 := by
        rw [hn']
        split_ifs <;> simpa using hn0
      have hval : (n' : ℚ) / (d' : ℚ) = (n : ℚ) / (d : ℚ) := by
        rw [hn', hd']
        split_ifs with h
        · push_cast
          rw [neg_div_neg_eq]
        · rfl
      by_cases hd'1 : d' = 1
      · rw [if_pos hd'1]
        refine ⟨.int n', rfl, rfl, trivial, ?_⟩
        rw [SNum.toQ, ← hval, hd'1]
        norm_num
      · rw [if_neg hd'1, if_neg (by omega : ¬ d' = 0)]
        have hgeq : scm_gcd n' d' = ((Int.gcd n' d' : Nat) : Int) := by
          rw [scm_gcd, if_neg hn'0, if_neg (by omega : ¬ d' = 0)]
          rfl
        rw [hgeq]
        set g : Nat := Int.gcd n' d' with hg
        have hgpos : 0 < g := Int.gcd_pos_iff.2 (Or.inl hn'0)
        have hdl : ((g : Nat) : Int) ∣ n' := Int.gcd_dvd_left
        have hdr : ((g : Nat) : Int) ∣ d' := Int.gcd_dvd_right
        have hgQ : ((g : Nat) : ℚ) ≠ 0 := by
          exact_mod_cast hgpos.ne'
        have htdl : n'.tdiv (g : Int) = n' / (g : Int) := Int.tdiv_eq_ediv_of_dvd hdl
        have htdr : d'.tdiv (g : Int) = d' / (g : Int) := Int.tdiv_eq_ediv_of_dvd hdr
        have hdqpos : 0 < d' / (g : Int) :=
          Int.ediv_pos_of_pos_of_dvd hd'pos (by exact_mod_cast Nat.zero_le g) hdr
        have hvq : ((n' / (g : Int) : Int) : ℚ) / ((d' / (g : Int) : Int) : ℚ)
            = (n' : ℚ) / (d' : ℚ) := by
          obtain ⟨a, ha⟩ := hdl
          obtain ⟨b, hb⟩ := hdr
          rw [ha, hb, Int.mul_ediv_cancel_left _ (by exact_mod_cast hgpos.ne'),
              Int.mul_ediv_cancel_left _ (by exact_mod_cast hgpos.ne')]
          push_cast
          rw [mul_div_mul_left _ _ hgQ]
        by_cases hg1 : ((g : Nat) : Int) = 1
        · rw [if_pos hg1]
          refine ⟨.rat n' d', rfl, rfl, ⟨by omega, ?_⟩, by rw [SNum.toQ, hval]⟩
          exact_mod_cast hg1
        · rw [if_neg hg1]
          rw [htdl, htdr]
          by_cases hdq1 : d' / (g : Int) = 1
          · rw [if_pos hdq1]
            refine ⟨.int (n' / (g : Int)), rfl, rfl, trivial, ?_⟩
            rw [SNum.toQ, ← hval, ← hvq, hdq1]
            norm_num
          · rw [if_neg hdq1]
            refine ⟨.rat (n' / (g : Int)) (d' / (g : Int)), rfl, rfl, ⟨by omega, ?_⟩,
                    by rw [SNum.toQ, hvq, hval]⟩
            exact Int.gcd_div_gcd_div_gcd (by exact_mod_cast hgpos)

/-- C4: `Scm_MakeRational` on exact integers returns the canonical
exact rational of value `n/d` — an integer when the reduced denominator
is 1, otherwise a Ratnum with positive denominator (≠ 1) and coprime
parts — and raises an error on an exact zero denominator. -/
theorem c4_makeRational (n d : Int) (hd : d ≠ 0) :
    (∃ r, scm_MakeRational (.int n) (.int d) = .ok r ∧ r.exactP = true ∧ r.valid
          ∧ r.toQ = (n : ℚ) / (d : ℚ))
    ∧ scm_MakeRational (.int n) (.int 0) = .error .divByZero :=
  ⟨makeRational_spec n d hd, by simp [scm_MakeRational]⟩

/-- Witness for C4 at `6 / -4`, whose canonical form is `-3/2`. -/
theorem c4_witness :
    scm_MakeRational (.int 6) (.int (-4)) = .ok (.rat (-3) 2)
    ∧ (SNum.rat (-3) 2).valid
    ∧ (∃ r, scm_MakeRational (.int 6) (.int (-4)) = .ok r ∧ r.exactP = true ∧ r.valid
            ∧ r.toQ = ((6 : Int) : ℚ) / ((-4 : Int) : ℚ)) := by
  refine ⟨by decide, by decide, (c4_makeRational 6 (-4) (by decide)).1⟩

/-! ### Correctness of `Scm_RatnumAddSub` -/

theorem ratnumAddSub_core (nx dx ny dy : Int) (hdx : 0 < dx) (hdy : 0 < dy) (sub : Bool) :
    ∃ r,
      (if dx = dy then
        scm_MakeRational (.int (if sub then nx - ny else nx + ny)) (.int dx)
      else if dx = (if dx = 1 ∨ dx = 1 then 1 else scm_gcd dx dy) then
        scm_MakeRational (.int (if sub then (dy.tdiv dx) * nx - ny else (dy.tdiv dx) * nx + ny))
          (.int dy)
      else if dy = (if dx = 1 ∨ dx = 1 then 1 else scm_gcd dx dy) then
        scm_MakeRational (.int (if sub then nx - (dx.tdiv dy) * ny else nx + (dx.tdiv dy) * ny))
          (.int dx)
      else
        scm_MakeRational
          (.int (if sub then nx * (dy.tdiv (if dx = 1 ∨ dx = 1 then 1 else scm_gcd dx dy))
                          - ny * (dx.tdiv (if dx = 1 ∨ dx = 1 then 1 else scm_gcd dx dy))
                 else nx * (dy.tdiv (if dx = 1 ∨ dx = 1 then 1 else scm_gcd dx dy))
                          + ny * (dx.tdiv (if dx = 1 ∨ dx = 1 then 1 else scm_gcd dx dy))))
          (.int (dx * (dy.tdiv (if dx = 1 ∨ dx = 1 then 1 else scm_gcd dx dy)))))
      = .ok r ∧ r.exactP = true ∧ r.valid
      ∧ r.toQ = (if sub then (nx:ℚ)/(dx:ℚ) - (ny:ℚ)/(dy:ℚ)
                 else (nx:ℚ)/(dx:ℚ) + (ny:ℚ)/(dy:ℚ)) := by
  have hdxQ : (dx:ℚ) ≠ 0 := by exact_mod_cast hdx.ne'
  have hdyQ : (dy:ℚ) ≠ 0 := by exact_mod_cast hdy.ne'
  by_cases heq : dx = dy
  · rw [if_pos heq]
    obtain ⟨r, h1, h2, h3, h4⟩ := makeRational_spec (if sub then nx - ny else nx + ny) dx hdx.ne'
    refine ⟨r, h1, h2, h3, ?_⟩
    rw [h4, ← heq]
    cases sub <;> push_cast <;> simp [add_div, sub_div]
  · rw [if_neg heq]
    set G : Int := if dx = 1 ∨ dx = 1 then 1 else scm_gcd dx dy with hG
    have hGfacts : G ∣ dx ∧ G ∣ dy ∧ 0 < G := by
      rw [hG]
      by_cases hdx1 : dx = 1
      · rw [if_pos (Or.inl hdx1)]
        exact ⟨one_dvd _, one_dvd _, one_pos⟩
      · rw [if_neg (by tauto)]
        rw [scm_gcd, if_neg (by omega : ¬ dx = 0), if_neg (by omega : ¬ dy = 0)]
        refine ⟨?_, ?_, ?_⟩
        · exact_mod_cast (Int.gcd_dvd_left : ((Int.gcd dx dy : Nat) : Int) ∣ dx)
        · exact_mod_cast (Int.gcd_dvd_right : ((Int.gcd dx dy : Nat) : Int) ∣ dy)
        · rw [Int.ofNat_eq_coe]
          exact_mod_cast Int.gcd_pos_iff.2 (Or.inl (by omega : dx ≠ 0))
    obtain ⟨hGdx, hGdy, hGpos⟩ := hGfacts
    by_cases hbx : dx = G
    · rw [if_pos hbx]
      have hdvd : dx ∣ dy := hbx ▸ hGdy
      obtain ⟨k, hk⟩ := hdvd
      have hkpos : 0 < k := by
        have h1 : 0 < dx * k := hk ▸ hdy
        by_contra hle
        push_neg at hle
        have h2 : dx * k ≤ 0 := mul_nonpos_iff.mpr (Or.inl ⟨hdx.le, hle⟩)
        omega
      have htd : dy.tdiv dx = k := by
        rw [Int.tdiv_eq_ediv_of_dvd ⟨k, hk⟩, hk, Int.mul_ediv_cancel_left _ (by omega)]
      obtain ⟨r, h1, h2, h3, h4⟩ :=
        makeRational_spec (if sub then (dy.tdiv dx) * nx - ny else (dy.tdiv dx) * nx + ny)
          dy hdy.ne'
      refine ⟨r, h1, h2, h3, ?_⟩
      rw [h4, htd, hk]
      have hkQ : (k:ℚ) ≠ 0 := by exact_mod_cast hkpos.ne'
      cases sub
      · push_cast
        field_simp
        ring
      · push_cast
        field_simp
        ring
    · rw [if_neg hbx]
      by_cases hby : dy = G
      · rw [if_pos hby]
        have hdvd : dy ∣ dx := hby ▸ hGdx
        obtain ⟨k, hk⟩ := hdvd
        have hkpos : 0 < k := by
          have h1 : 0 < dy * k := hk ▸ hdx
          by_contra hle
          push_neg at hle
          have h2 : dy * k ≤ 0 := mul_nonpos_iff.mpr (Or.inl ⟨hdy.le, hle⟩)
          omega
        have htd : dx.tdiv dy = k := by
          rw [Int.tdiv_eq_ediv_of_dvd ⟨k, hk⟩, hk, Int.mul_ediv_cancel_left _ (by omega)]
        obtain ⟨r, h1, h2, h3, h4⟩ :=
          makeRational_spec (if sub then nx - (dx.tdiv dy) * ny else nx + (dx.tdiv dy) * ny)
            dx hdx.ne'
        refine ⟨r, h1, h2, h3, ?_⟩
        rw [h4, htd, hk]
        have hkQ : (k:ℚ) ≠ 0 := by exact_mod_cast hkpos.ne'
        cases sub
        · push_cast
          field_simp
          ring
        · push_cast
          field_simp
          ring
      · rw [if_neg hby]
        obtain ⟨a, ha⟩ := hGdx
        obtain ⟨b, hb⟩ := hGdy
        have hapos : 0 < a := by
          have h1 : 0 < G * a := ha ▸ hdx
          by_contra hle
          push_neg at hle
          have h2 : G * a ≤ 0 := mul_nonpos_iff.mpr (Or.inl ⟨hGpos.le, hle⟩)
          omega
        have hbpos : 0 < b := by
          have h1 : 0 < G * b := hb ▸ hdy
          by_contra hle
          push_neg at hle
          have h2 : G * b ≤ 0 := mul_nonpos_iff.mpr (Or.inl ⟨hGpos.le, hle⟩)
          omega
        have htda : dx.tdiv G = a := by
          rw [Int.tdiv_eq_ediv_of_dvd ⟨a, ha⟩, ha, Int.mul_ediv_cancel_left _ (by omega)]
        have htdb : dy.tdiv G = b := by
          rw [Int.tdiv_eq_ediv_of_dvd ⟨b, hb⟩, hb, Int.mul_ediv_cancel_left _ (by omega)]
        have hden : dx * dy.tdiv G ≠ 0 := by
          rw [htdb]
          have : 0 < dx * b := mul_pos hdx hbpos
          omega
        obtain ⟨r, h1, h2, h3, h4⟩ :=
          makeRational_spec (if sub then nx * (dy.tdiv G) - ny * (dx.tdiv G)
                             else nx * (dy.tdiv G) + ny * (dx.tdiv G))
            (dx * dy.tdiv G) hden
        refine ⟨r, h1, h2, h3, ?_⟩
        rw [h4, htda, htdb, ha, hb]
        have haQ : (a:ℚ) ≠ 0 := by exact_mod_cast hapos.ne'
        have hbQ : (b:ℚ) ≠ 0 := by exact_mod_cast hbpos.ne'
        have hGQ : (G:ℚ) ≠ 0 := by exact_mod_cast hGpos.ne'
        cases sub
        · push_cast
          field_simp
          ring
        · push_cast
          field_simp
          ring

/-- C8: `Scm_RatnumAddSub` on canonical exact arguments returns the
canonical exact value of `x ± y`; in particular the result is correct
although the shortcut guard at number.c:761 reads
`SCM_EXACT_ONE_P(dx)||SCM_EXACT_ONE_P(dx)` — when `dx ≠ 1` but
`dy = 1` the guard merely falls through to `Scm_Gcd(dx, 1) = 1`, which
is the same gcd the intended `dy` test would have short-circuited, so
only a gcd computation is wasted and every value is unchanged. -/
theorem c8_ratnumAddSub (x y : SNum) (sub : Bool)
    (hx : x.exactP = true) (hy : y.exactP = true) (hvx : x.valid) (hvy : y.valid) :
    ∃ r, scm_RatnumAddSub x y sub = .ok r ∧ r.exactP = true ∧ r.valid
         ∧ r.toQ = (if sub then x.toQ - y.toQ else x.toQ + y.toQ) := by
  rcases x with a | ⟨n0, d0⟩ | f | ⟨re, im⟩
  · rcases y with b | ⟨n1, d1⟩ | g | ⟨re1, im1⟩
    · obtain ⟨r, h1, h2, h3, h4⟩ := ratnumAddSub_core a 1 b 1 one_pos one_pos sub
      refine ⟨r, h1, h2, h3, ?_⟩
      rw [h4]
      simp [SNum.toQ]
    · obtain ⟨hd1, -⟩ := hvy
      obtain ⟨r, h1, h2, h3, h4⟩ := ratnumAddSub_core a 1 n1 d1 one_pos (by omega) sub
      refine ⟨r, h1, h2, h3, ?_⟩
      rw [h4]
      simp [SNum.toQ]
    · simp [SNum.exactP] at hy
    · simp [SNum.exactP] at hy
  · rcases y with b | ⟨n1, d1⟩ | g | ⟨re1, im1⟩
    · obtain ⟨hd0, -⟩ := hvx
      obtain ⟨r, h1, h2, h3, h4⟩ := ratnumAddSub_core n0 d0 b 1 (by omega) one_pos sub
      refine ⟨r, h1, h2, h3, ?_⟩
      rw [h4]
      simp [SNum.toQ]
    · obtain ⟨hd0, -⟩ := hvx
      obtain ⟨hd1, -⟩ := hvy
      obtain ⟨r, h1, h2, h3, h4⟩ := ratnumAddSub_core n0 d0 n1 d1 (by omega) (by omega) sub
      refine ⟨r, h1, h2, h3, ?_⟩
      rw [h4]
      simp [SNum.toQ]
    · simp [SNum.exactP] at hy
    · simp [SNum.exactP] at hy
  · simp [SNum.exactP] at hx
  · simp [SNum.exactP] at hx

/-- Witness for C8 at the claim's example `1/3 + 1/6 = 1/2` (both the
theorem instance and the concrete evaluation). -/
theorem c8_witness :
    scm_RatnumAddSub (.rat 1 3) (.rat 1 6) false = .ok (.rat 1 2)
    ∧ (∃ r, scm_RatnumAddSub (.rat 1 3) (.rat 1 6) false = .ok r ∧ r.exactP = true ∧ r.valid
            ∧ r.toQ = (if false then (SNum.rat 1 3).toQ - (SNum.rat 1 6).toQ
                       else (SNum.rat 1 3).toQ + (SNum.rat 1 6).toQ)) := by
  refine ⟨by decide, c8_ratnumAddSub (.rat 1 3) (.rat 1 6) false rfl rfl ?_ ?_⟩
  · exact ⟨by decide, by decide⟩
  · exact ⟨by decide, by decide⟩

/-! ### C7: contagion of multiplication -/

/-- `Scm_MakeComplex` never yields an exact number: both branches build
an inexact object. -/
theorem makeComplex_exactP (r i : F64) : (makeComplex r i).exactP = false := by
  unfold makeComplex
  split <;> rfl

/-- The only error `Scm_GetDouble` can raise is the `Scm_Ash` shift cap
on the ratnum full-precision path. -/
theorem getDouble_error_eq (z : SNum) (e : RtErr) (h : getDouble z = .error e) :
    e = .ashTooBig := by
  match z with
  | .flo f => exact absurd h (by simp [getDouble])
  | .int v => exact absurd h (by simp [getDouble])
  | .comp re im => exact absurd h (by simp [getDouble])
  | .rat n d =>
    simp only [getDouble] at h
    split_ifs at h
    exact (Except.error.inj h).symm

/-- Exact operands multiply to an exact result (canonical validity is
used only to keep the ratnum denominators nonzero). -/
theorem mul_exact_exact (x y : SNum) (hvx : x.valid) (hvy : y.valid)
    (hx : x.exactP = true) (hy : y.exactP = true) :
    ∃ r, scm_mul x y = .ok r ∧ r.exactP = true := by
  rcases x with a | ⟨n0, d0⟩ | f | ⟨r0, i0⟩
  · rcases y with b | ⟨n1, d1⟩ | g | ⟨r1, i1⟩
    · exact ⟨.int (a * b), rfl, rfl⟩
    · by_cases ha0 : a = 0
      · exact ⟨.int 0, by simp [scm_mul, ha0], rfl⟩
      by_cases ha1 : a = 1
      · exact ⟨.rat n1 d1, by simp [scm_mul, ha0, ha1], rfl⟩
      obtain ⟨hd1, -⟩ := hvy
      obtain ⟨r, hr, hex, -, -⟩ := makeRational_spec (a * n1) (1 * d1) (by omega)
      refine ⟨r, ?_, hex⟩
      simp only [scm_mul, if_neg ha0, if_neg ha1]
      exact hr
    · simp [SNum.exactP] at hy
    · simp [SNum.exactP] at hy
  · rcases y with b | ⟨n1, d1⟩ | g | ⟨r1, i1⟩
    · by_cases hb0 : b = 0
      · exact ⟨.int 0, by simp [scm_mul, hb0], rfl⟩
      by_cases hb1 : b = 1
      · exact ⟨.rat n0 d0, by simp [scm_mul, hb0, hb1], rfl⟩
      obtain ⟨hd0, -⟩ := hvx
      obtain ⟨r, hr, hex, -, -⟩ := makeRational_spec (n0 * b) (d0 * 1) (by omega)
      refine ⟨r, ?_, hex⟩
      simp only [scm_mul, if_neg hb0, if_neg hb1]
      exact hr
    · obtain ⟨hd0, -⟩ := hvx
      obtain ⟨hd1, -⟩ := hvy
      obtain ⟨r, hr, hex, -, -⟩ := makeRational_spec (n0 * n1) (d0 * d1)
        (mul_ne_zero (by omega) (by omega))
      refine ⟨r, ?_, hex⟩
      simp only [scm_mul]
      exact hr
    · simp [SNum.exactP] at hy
    · simp [SNum.exactP] at hy
  · simp [SNum.exactP] at hx
  · simp [SNum.exactP] at hx

/-- An exact-zero operand short-circuits to exact `0` in every branch of
`scm_mul`. -/
theorem mul_zero_exact (x y : SNum) (h : x = .int 0 ∨ y = .int 0) :
    scm_mul x y = .ok (.int 0) := by
  rcases h with h | h
  · subst h
    rcases y with b | ⟨n1, d1⟩ | g | ⟨r1, i1⟩ <;> simp [scm_mul]
  · subst h
    rcases x with a | ⟨n0, d0⟩ | f | ⟨r0, i0⟩ <;> simp [scm_mul]

/-- With an inexact operand and no exact-zero operand, every `ok` result
of `scm_mul` is inexact. -/
theorem mul_inexact_taints (x y r : SNum) (h : scm_mul x y = .ok r)
    (hin : x.exactP = false ∨ y.exactP = false)
    (hx0 : x ≠ .int 0) (hy0 : y ≠ .int 0) : r.exactP = false := by
  rcases x with a | ⟨n0, d0⟩ | f | ⟨r0, i0⟩
  · have ha : a ≠ 0 := by rintro rfl; exact hx0 rfl
    rcases y with b | ⟨n1, d1⟩ | g | ⟨r1, i1⟩
    · rcases hin with hin | hin <;> simp [SNum.exactP] at hin
    · rcases hin with hin | hin <;> simp [SNum.exactP] at hin
    · simp only [scm_mul, if_neg ha] at h
      split_ifs at h <;> (injection h with h; subst h; rfl)
    · simp only [scm_mul, if_neg ha] at h
      split_ifs at h <;> injection h with h <;> subst h
      · rfl
      · exact makeComplex_exactP _ _
  · rcases y with b | ⟨n1, d1⟩ | g | ⟨r1, i1⟩
    · rcases hin with hin | hin <;> simp [SNum.exactP] at hin
    · rcases hin with hin | hin <;> simp [SNum.exactP] at hin
    · simp only [scm_mul] at h
      split_ifs at h
      · injection h with h; subst h; rfl
      · rcases hgd : getDouble (SNum.rat n0 d0) with e | z <;> rw [hgd] at h
        · exact Except.noConfusion h
        · injection h with h; subst h; rfl
    · simp only [scm_mul] at h
      rcases hgd : getDouble (SNum.rat n0 d0) with e | z <;> rw [hgd] at h
      · exact Except.noConfusion h
      · injection h with h; subst h; exact makeComplex_exactP _ _
  · rcases y with b | ⟨n1, d1⟩ | g | ⟨r1, i1⟩
    · have hb : b ≠ 0 := by rintro rfl; exact hy0 rfl
      simp only [scm_mul, if_neg hb] at h
      split_ifs at h <;> (injection h with h; subst h; rfl)
    · simp only [scm_mul] at h
      rcases hgd : getDouble (SNum.rat n1 d1) with e | z <;> rw [hgd] at h
      · exact Except.noConfusion h
      · injection h with h; subst h; rfl
    · simp only [scm_mul] at h
      split_ifs at h <;> (injection h with h; subst h; rfl)
    · simp only [scm_mul] at h
      injection h with h; subst h
      exact makeComplex_exactP _ _
  · rcases y with b | ⟨n1, d1⟩ | g | ⟨r1, i1⟩
    · have hb : b ≠ 0 := by rintro rfl; exact hy0 rfl
      simp only [scm_mul, if_neg hb] at h
      split_ifs at h <;> injection h with h <;> subst h
      · rfl
      · exact makeComplex_exactP _ _
    · simp only [scm_mul] at h
      rcases hgd : getDouble (SNum.rat n1 d1) with e | z <;> rw [hgd] at h
      · exact Except.noConfusion h
      · injection h with h; subst h; exact makeComplex_exactP _ _
    · simp only [scm_mul] at h
      split_ifs at h <;> injection h with h <;> subst h
      · rfl
      · exact makeComplex_exactP _ _
    · simp only [scm_mul] at h
      injection h with h; subst h
      exact makeComplex_exactP _ _

/-- Every error `scm_mul` can raise on canonical operands is the
`Scm_Ash` shift cap surfaced through `Scm_GetDouble`. -/
theorem mul_error_ash (x y : SNum) (e : RtErr) (hvx : x.valid) (hvy : y.valid)
    (h : scm_mul x y = .error e) : e = .ashTooBig := by
  rcases x with a | ⟨n0, d0⟩ | f | ⟨r0, i0⟩
  · rcases y with b | ⟨n1, d1⟩ | g | ⟨r1, i1⟩
    · exact Except.noConfusion h
    · by_cases ha0 : a = 0
      · simp [scm_mul, ha0] at h
      by_cases ha1 : a = 1
      · simp [scm_mul, ha0, ha1] at h
      obtain ⟨hd1, -⟩ := hvy
      obtain ⟨r, hr, -, -, -⟩ := makeRational_spec (a * n1) (1 * d1) (by omega)
      simp only [scm_mul, if_neg ha0, if_neg ha1] at h
      rw [show scm_RatnumMulDiv (.int a) (.rat n1 d1) false
            = scm_MakeRational (.int (a * n1)) (.int (1 * d1)) from rfl, hr] at h
      exact Except.noConfusion h
    · simp only [scm_mul] at h
      split_ifs at h
    · simp only [scm_mul] at h
      split_ifs at h
  · rcases y with b | ⟨n1, d1⟩ | g | ⟨r1, i1⟩
    · by_cases hb0 : b = 0
      · simp [scm_mul, hb0] at h
      by_cases hb1 : b = 1
      · simp [scm_mul, hb0, hb1] at h
      obtain ⟨hd0, -⟩ := hvx
      obtain ⟨r, hr, -, -, -⟩ := makeRational_spec (n0 * b) (d0 * 1) (by omega)
      simp only [scm_mul, if_neg hb0, if_neg hb1] at h
      rw [show scm_RatnumMulDiv (.rat n0 d0) (.int b) false
            = scm_MakeRational (.int (n0 * b)) (.int (d0 * 1)) from rfl, hr] at h
      exact Except.noConfusion h
    · obtain ⟨hd0, -⟩ := hvx
      obtain ⟨hd1, -⟩ := hvy
      obtain ⟨r, hr, -, -, -⟩ := makeRational_spec (n0 * n1) (d0 * d1)
        (mul_ne_zero (by omega) (by omega))
      simp only [scm_mul] at h
      rw [show scm_RatnumMulDiv (.rat n0 d0) (.rat n1 d1) false
            = scm_MakeRational (.int (n0 * n1)) (.int (d0 * d1)) from rfl, hr] at h
      exact Except.noConfusion h
    · simp only [scm_mul] at h
      split_ifs at h
      rcases hgd : getDouble (SNum.rat n0 d0) with e' | z <;> rw [hgd] at h
      · exact (Except.error.inj h) ▸ getDouble_error_eq _ _ hgd
      · exact Except.noConfusion h
    · simp only [scm_mul] at h
      rcases hgd : getDouble (SNum.rat n0 d0) with e' | z <;> rw [hgd] at h
      · exact (Except.error.inj h) ▸ getDouble_error_eq _ _ hgd
      · exact Except.noConfusion h
  · rcases y with b | ⟨n1, d1⟩ | g | ⟨r1, i1⟩
    · simp only [scm_mul] at h
      split_ifs at h
    · simp only [scm_mul] at h
      rcases hgd : getDouble (SNum.rat n1 d1) with e' | z <;> rw [hgd] at h
      · exact (Except.error.inj h) ▸ getDouble_error_eq _ _ hgd
      · exact Except.noConfusion h
    · simp only [scm_mul] at h
      split_ifs at h
    · exact Except.noConfusion h
  · rcases y with b | ⟨n1, d1⟩ | g | ⟨r1, i1⟩
    · simp only [scm_mul] at h
      split_ifs at h
    · simp only [scm_mul] at h
      rcases hgd : getDouble (SNum.rat n1 d1) with e' | z <;> rw [hgd] at h
      · exact (Except.error.inj h) ▸ getDouble_error_eq _ _ hgd
      · exact Except.noConfusion h
    · simp only [scm_mul] at h
      split_ifs at h
    · exact Except.noConfusion h

/-- C7 counterexample: the claim says any inexact operand makes the
product inexact (with only the exact-0 exception), i.e. `scm_mul` on a
canonical ratnum and a flonum always yields a number.  But the ratnum
`1/2^268435402` times the flonum `1.0` raises the `Scm_Ash` "count too
big" error (number.c:3292-3294): `Scm_GetDouble`'s full-precision path
shifts the numerator left by `54 - (n_hi - d_hi) = 268435456 = 2^28`
bits, which reaches the cap, so no product at all is returned. -/
theorem c7_mul_ash_counterexample :
    scm_mul (.rat 1 ((1 <<< 268435402 : Nat) : Int)) (.flo (.fin false (2 ^ 52) (-52)))
      = .error .ashTooBig
    ∧ (SNum.rat 1 ((1 <<< 268435402 : Nat) : Int)).valid
    ∧ (SNum.flo (.fin false (2 ^ 52) (-52))).valid := by
  refine ⟨rfl, ⟨?_, ?_⟩, by decide⟩
  · rw [shiftLeft_one]
    exact_mod_cast Nat.one_lt_two_pow (by norm_num)
  · exact Int.gcd_eq_one_iff_coprime.mpr ⟨1, 0, by ring⟩

/-- **C7** (amended).  Contagion of `scm_mul` on canonical operands:
exact operands yield an exact product; an exact-zero operand yields
exact `0` whatever the other operand is; an inexact operand taints any
returned product (when no exact-zero operand short-circuits); and the
one way no product is returned at all is the `Scm_Ash` shift-cap error,
raised when a ratnum operand's conversion to double exceeds the cap
(the deviation from the claim, which admits no error). -/
theorem c7_mul_contagion (x y : SNum) (hvx : x.valid) (hvy : y.valid) :
    (x.exactP = true → y.exactP = true → ∃ r, scm_mul x y = .ok r ∧ r.exactP = true)
    ∧ ((x = .int 0 ∨ y = .int 0) → scm_mul x y = .ok (.int 0))
    ∧ (∀ r, scm_mul x y = .ok r → (x.exactP = false ∨ y.exactP = false) →
        x ≠ .int 0 → y ≠ .int 0 → r.exactP = false)
    ∧ (∀ e, scm_mul x y = .error e → e = .ashTooBig) :=
  ⟨fun hx hy => mul_exact_exact x y hvx hvy hx hy,
   fun h => mul_zero_exact x y h,
   fun r h hin hx0 hy0 => mul_inexact_taints x y r h hin hx0 hy0,
   fun e h => mul_error_ash x y e hvx hvy h⟩

/-- Witness for C7: exact `0` times the flonum `1.0` returns exact `0`,
and `2` times `0.5` returns an inexact result, both through the
contagion theorem at concrete inputs. -/
theorem c7_witness :
    scm_mul (.int 0) (.flo (.fin false (2 ^ 52) (-52))) = .ok (.int 0)
    ∧ ∀ r, scm_mul (.int 2) (.flo (.fin false (2 ^ 52) (-53))) = .ok r → r.exactP = false := by
  constructor
  · exact (c7_mul_contagion (.int 0) (.flo (.fin false (2 ^ 52) (-52)))
      trivial (by decide)).2.1 (Or.inl rfl)
  · intro r h
    exact (c7_mul_contagion (.int 2) (.flo (.fin false (2 ^ 52) (-53)))
      trivial (by decide)).2.2.1 r h (Or.inr rfl) (by decide) (by decide)


/-! ### C6: division by zero -/

/-- C6 counterexample: the claim says division by an exact zero divisor
in the exact flavor raises an error, but a flonum dividend reaches the
`anormal` branch even there (number.c:2296-2300): `1.0 / 0` in the
exact flavor returns `+inf.0` instead of raising. -/
theorem c6_flonum_div_exact_zero_counterexample :
    scm_div (.flo (.fin false (2 ^ 52) (-52))) (.int 0) false false
      = .ok (.flo (.inf false))
    ∧ (SNum.flo (.fin false (2 ^ 52) (-52))).exactP = false :=
  ⟨by decide, rfl⟩

/-- **C6** (amended).  Zero-divisor behaviour of `scm_div` on real
dividends (exact, or a non-NaN flonum): an exact dividend divided by
exact `0` in the exact flavor raises the division-by-zero error; any
real dividend divided by an inexact zero yields NaN when the dividend's
sign is zero and otherwise the infinity whose sign is the dividend's
sign times the signbit-derived sign of the zero divisor; a flonum
dividend divided by exact `0` skips the error and gets the same
sign-rule treatment in every flavor (the deviation from the claim); and
an exact dividend divided by exact `0` in the inexact flavor also takes
the sign rule, with the divisor's sign factor fixed at `+1`. -/
theorem c6_div_zero (x : SNum) (inexact compat : Bool)
    (hreal : x.exactP = true ∨ ∃ f, x = .flo f ∧ f.isNaN = false) :
    (x.exactP = true →
        scm_div x (.int 0) false compat = .error .divByZero)
    ∧ (∀ z : F64, z.isZero = true →
        scm_div x (.flo z) inexact compat =
          .ok (.flo (if scm_Sign x = 0 then .nan
                     else if scm_Sign x * flonumSign z < 0 then .inf true
                     else .inf false)))
    ∧ ((∃ f, x = .flo f) →
        scm_div x (.int 0) inexact compat =
          .ok (.flo (if scm_Sign x = 0 then .nan
                     else if scm_Sign x < 0 then .inf true
                     else .inf false)))
    ∧ (x.exactP = true →
        scm_div x (.int 0) true compat =
          .ok (.flo (if scm_Sign x = 0 then .nan
                     else if scm_Sign x < 0 then .inf true
                     else .inf false))) := by
  refine ⟨?_, ?_, ?_, ?_⟩
  · intro hx
    rcases x with a | ⟨n, d⟩ | f | ⟨r0, i0⟩
    · simp [scm_div]
    · simp [scm_div]
    · simp [SNum.exactP] at hx
    · simp [SNum.exactP] at hx
  · intro z hz
    rcases x with a | ⟨n, d⟩ | f | ⟨r0, i0⟩
    · simp only [scm_div, hz, if_true]
      simp only [scm_div.anormal]
      split_ifs <;> rfl
    · simp only [scm_div, hz, if_true]
      simp only [scm_div.anormal]
      split_ifs <;> rfl
    · have hNaN : f.isNaN = false := by
        rcases hreal with hx | ⟨g, hg, hN⟩
        · simp [SNum.exactP] at hx
        · injection hg with hg
          exact hg ▸ hN
      simp only [scm_div, hNaN, Bool.false_eq_true, if_false, hz, if_true]
      simp only [scm_div.anormal]
      split_ifs <;> rfl
    · rcases hreal with hx | ⟨g, hg, -⟩
      · simp [SNum.exactP] at hx
      · exact SNum.noConfusion hg
  · rintro ⟨f, rfl⟩
    have hNaN : f.isNaN = false := by
      rcases hreal with hx | ⟨g, hg, hN⟩
      · simp [SNum.exactP] at hx
      · injection hg with hg
        exact hg ▸ hN
    simp only [scm_div, hNaN, Bool.false_eq_true, if_false, if_pos rfl]
    simp only [scm_div.anormal, mul_one]
    split_ifs <;> rfl
  · intro hx
    rcases x with a | ⟨n, d⟩ | f | ⟨r0, i0⟩
    · simp only [scm_div, if_pos rfl, if_true]
      simp only [scm_div.anormal, mul_one]
      split_ifs <;> rfl
    · simp only [scm_div, if_pos rfl, if_true]
      simp only [scm_div.anormal, mul_one]
      split_ifs <;> rfl
    · simp [SNum.exactP] at hx
    · simp [SNum.exactP] at hx

/-- Witness for C6: `-3 / -0.0` is `+inf.0` (the two negative signs
cancel through the signbit rule), via the zero-divisor theorem at a
concrete input. -/
theorem c6_witness :
    scm_div (.int (-3)) (.flo (.fin true 0 (-1074))) false false
      = .ok (.flo (.inf false)) :=
  ((c6_div_zero (.int (-3)) false false (Or.inl rfl)).2.1
    (.fin true 0 (-1074)) rfl).trans (by decide)


/-! ### C9: reader exponent overflow -/

/-- Character-level facts about the ten decimal digit characters, used
to drive the reader loops symbolically. -/
theorem decDigitFacts : ∀ c ∈ String.toList "0123456789",
    c.toLower = c ∧ c.isDigit = true ∧ ¬c = '_' ∧ ¬c = '#'
    ∧ ¬c = '-' ∧ ¬c = '+' ∧ ¬c = '.' ∧ ¬c = '/' ∧ ¬c = 'i' ∧ ¬c = 'n'
    ∧ 0 ≤ digV c := by decide

/-- `read_uint`'s accumulation loop on a run of decimal digits followed
by a non-continuing character: it consumes exactly the digits and
returns the decimal value, leaving the context untouched. -/
theorem readUIntLoop_digits (ds : List Char) :
    ∀ (rest : List Char) (ctx : RdCtx) (dr : Bool) (v : Int),
    ctx.padread = false →
    (∀ c ∈ ds, c ∈ String.toList "0123456789") →
    (∀ c, rest.head? = some c →
       ¬c.toLower = '_' ∧ ¬c.toLower = '#' ∧ c.toLower.isDigit = false) →
    readUIntLoop (ds ++ rest) ctx dr v
      = (List.foldl (fun a c => a * 10 + digV c) v ds, rest, ctx) := by
  induction ds with
  | nil =>
    intro rest ctx dr v hpad _ hstop
    cases rest with
    | nil => rfl
    | cons c r =>
      obtain ⟨h1, h2, h3⟩ := hstop c rfl
      simp only [List.nil_append, readUIntLoop, List.foldl_nil]
      rw [if_neg (fun h => h1 h.2.2), if_neg (by simp [hpad]),
          if_neg (fun h => h2 h.2), if_neg (by simp [h3])]
  | cons c ds ih =>
    intro rest ctx dr v hpad hds hstop
    obtain ⟨hlow, hdig, hus, hhash, -⟩ :=
      decDigitFacts c (hds c (List.mem_cons_self c ds))
    simp only [List.cons_append, readUIntLoop, List.foldl_cons]
    rw [hlow]
    rw [if_neg (fun h => hus h.2.2), if_neg (by simp [hpad]),
        if_neg (fun h => hhash h.2), if_pos hdig]
    exact ih rest ctx true (v * 10 + digV c) hpad
      (fun d hd => hds d (List.mem_cons_of_mem c hd)) hstop

/-- `read_real`'s exponent loop after the overflow flag is set: the
remaining digits are consumed without accumulating. -/
theorem readExpDigits_flagged (es : List Char) : ∀ (rest : List Char) (e : Int),
    (∀ c ∈ es, c ∈ String.toList "0123456789") →
    (∀ c, rest.head? = some c → c.isDigit = false) →
    readExpDigits (es ++ rest) e true = (e, true, rest) := by
  induction es with
  | nil =>
    intro rest e _ hstop
    cases rest with
    | nil => rfl
    | cons c r =>
      have hc := hstop c rfl
      simp only [List.nil_append, readExpDigits]
      rw [if_neg (by simp [hc])]
  | cons c es ih =>
    intro rest e hds hstop
    have hdig : c.isDigit = true :=
      (decDigitFacts c (hds c (List.mem_cons_self c es))).2.1
    simp only [List.cons_append, readExpDigits]
    rw [if_pos hdig, if_pos trivial]
    exact ih rest e (fun d hd => hds d (List.mem_cons_of_mem c hd)) hstop

/-- `read_real`'s exponent loop sets the overflow flag whenever the
decimal value of the digit run reaches `MAX_EXPONENT = 325`. -/
theorem readExpDigits_overflow (es : List Char) : ∀ (rest : List Char) (e : Int),
    (∀ c ∈ es, c ∈ String.toList "0123456789") →
    (∀ c, rest.head? = some c → c.isDigit = false) →
    0 ≤ e → e < 325 →
    325 ≤ List.foldl (fun a c => a * 10 + digV c) e es →
    ∃ e', readExpDigits (es ++ rest) e false = (e', true, rest) := by
  induction es with
  | nil =>
    intro rest e _ _ _ hlt hval
    simp only [List.foldl_nil] at hval
    omega
  | cons c es ih =>
    intro rest e hds hstop h0 hlt hval
    obtain ⟨-, hdig, -, -, -, -, -, -, -, -, hd0⟩ :=
      decDigitFacts c (hds c (List.mem_cons_self c es))
    simp only [List.cons_append, readExpDigits]
    rw [if_pos hdig, if_neg (by simp)]
    simp only [List.foldl_cons] at hval
    by_cases hbig : 325 ≤ e * 10 + digV c
    · rw [decide_eq_true hbig]
      exact ⟨e * 10 + digV c,
        readExpDigits_flagged es rest _
          (fun d hd => hds d (List.mem_cons_of_mem c hd)) hstop⟩
    · rw [decide_eq_false hbig]
      exact ih rest (e * 10 + digV c)
        (fun d hd => hds d (List.mem_cons_of_mem c hd)) hstop
        (by omega) (by omega) hval


/-- The tail of `read_real` on input `e` + optional exponent sign + a
digit run whose decimal value reaches `MAX_EXPONENT`: the exp_overflow
branch (number.c:4583-4597) fires, erroring under `EXACT` exactness and
otherwise saturating to the signed zero (negative exponent or zero
fraction) or the signed infinity. -/
theorem readRealTail_expOverflow (minusp expMinusp : Bool) (intF : Int)
    (markLen : Nat) (es : List Char) (ctx : RdCtx)
    (hne : es ≠ []) (hds : ∀ c ∈ es, c ∈ String.toList "0123456789")
    (hexp : 325 ≤ List.foldl (fun a c => a * 10 + digV c) 0 es)
    (hmark : ('e' :: ((if expMinusp then ['-'] else []) ++ es)).length ≠ markLen) :
    readReal.readRealTail minusp (some intF) markLen
        ('e' :: ((if expMinusp then ['-'] else []) ++ es)) ctx
      = ((if ctx.exactness = .exact then rdErr ctx
          else if expMinusp = true ∨ intF = 0 then .num (.flo (.fin minusp 0 (-1074)))
          else .num (.flo (.inf minusp))), [], ctx) := by
  obtain ⟨e', hred⟩ := readExpDigits_overflow es [] 0 hds
    (fun c h => by simp at h) le_rfl (by norm_num) hexp
  rw [List.append_nil] at hred
  obtain ⟨e1, es', rfl⟩ : ∃ a t, es = a :: t := by
    cases es with
    | nil => exact absurd rfl hne
    | cons a t => exact ⟨a, t, rfl⟩
  obtain ⟨-, -, -, -, hm5, hp5, -⟩ :=
    decDigitFacts e1 (hds e1 (List.mem_cons_self _ _))
  cases expMinusp with
  | false =>
    simp only [if_neg Bool.false_ne_true, List.nil_append] at hmark ⊢
    simp only [readReal.readRealTail, List.head?_cons, Option.some.injEq,
      List.length_cons, List.drop_succ_cons, List.drop_zero, List.isEmpty_cons,
      Option.getD_some, hred, hm5, hp5,
      (by decide : ¬(('e' : Char) = '.')), (by decide : ¬(('e' : Char) = '-')),
      (by decide : ((String.toList "eEsSfFdDlL").contains 'e') = true)]
    simp only [List.length_cons] at hmark
    simp [hmark, hred, hm5, hp5]
    split_ifs <;> rfl
  | true =>
    simp only [if_pos rfl, List.cons_append] at hmark ⊢
    simp only [readReal.readRealTail, List.head?_cons, Option.some.injEq,
      List.length_cons, List.drop_succ_cons, List.drop_zero, List.isEmpty_cons,
      Option.getD_some, hred,
      (by decide : ¬(('e' : Char) = '.')),
      (by decide : ((String.toList "eEsSfFdDlL").contains 'e') = true)]
    simp at hmark
    simp [hmark, hred]
    split_ifs <;> rfl

/-- **C9**.  When the reader meets a decimal exponent whose digit run
has value `MAX_EXPONENT = 325` or more, it raises the
implementation-limit error (surfaced through `numread_error`, i.e.
`rdErr`) when the contextual exactness is `EXACT`, and otherwise
saturates by sign: the signed zero for a negative exponent or a zero
fraction, the signed infinity for a positive exponent with nonzero
fraction.  Stated over every input of the shape
`[-] digits e [-] digits` with the exponent digits reaching 325. -/
theorem c9_reader_exponent_overflow (minusp expMinusp : Bool)
    (ms es : List Char) (ctx : RdCtx)
    (hmne : ms ≠ []) (hmd : ∀ c ∈ ms, c ∈ String.toList "0123456789")
    (hene : es ≠ []) (hed : ∀ c ∈ es, c ∈ String.toList "0123456789")
    (hexp : 325 ≤ List.foldl (fun a c => a * 10 + digV c) 0 es)
    (hpad : ctx.padread = false) :
    (readReal ((if minusp then ['-'] else [])
        ++ ms ++ 'e' :: ((if expMinusp then ['-'] else []) ++ es)) ctx).1
      = if ctx.exactness = .exact then rdErr ctx
        else if expMinusp = true
                ∨ List.foldl (fun a c => a * 10 + digV c) 0 ms = 0 then
          .num (.flo (.fin minusp 0 (-1074)))
        else .num (.flo (.inf minusp)) := by
  obtain ⟨m, ms', rfl⟩ : ∃ a t, ms = a :: t := by
    cases ms with
    | nil => exact absurd rfl hmne
    | cons a t => exact ⟨a, t, rfl⟩
  obtain ⟨hlowm, hdigm, -, -, hmm, hmp, hmd5, hms5, hmi, hmn, -⟩ :=
    decDigitFacts m (hmd m (List.mem_cons_self _ _))
  have hloop := readUIntLoop_digits (m :: ms')
      ('e' :: ((if expMinusp then ['-'] else []) ++ es)) ctx false 0 hpad hmd
      (fun c hc => by cases hc; exact ⟨by decide, by decide, by decide⟩)
  simp only [List.cons_append] at hloop
  cases minusp with
  | false =>
    simp only [readReal]
    simp [hmm, hmp, hmd5, hms5, readUInt, hloop]
    rw [readRealTail_expOverflow _ expMinusp _ _ es ctx hene hed hexp
      (by
        intro h
        rw [List.length_cons, List.length_append] at h
        omega)]
  | true =>
    simp only [readReal]
    simp [hlowm, hmm, hmp, hmd5, hms5, hmi, hmn, readUInt, hloop]
    rw [readRealTail_expOverflow _ expMinusp _ _ es ctx hene hed hexp
      (by
        intro h
        rw [List.length_cons, List.length_append] at h
        omega)]

/-- Witness for C9 at the claim's examples: `"1e400"` reads as `+inf.0`
in the default (no-exactness) context, and reads as an error once the
`#e` prefix has set the exactness to `EXACT` (with `throwerror` on, as
when reading source text). -/
theorem c9_witness :
    (readReal (String.toList "1e400")
        ⟨10, .noexact, false, false, false, true⟩).1 = .num (.flo (.inf false))
    ∧ (readReal (String.toList "1e400")
        ⟨10, .exact, false, true, false, true⟩).1 = .rerror := by
  constructor
  · have h := c9_reader_exponent_overflow false false ['1'] ['4', '0', '0']
      ⟨10, .noexact, false, false, false, true⟩
      (by decide) (by decide) (by decide) (by decide) (by decide) rfl
    exact h.trans (by decide)
  · have h := c9_reader_exponent_overflow false false ['1'] ['4', '0', '0']
      ⟨10, .exact, false, true, false, true⟩
      (by decide) (by decide) (by decide) (by decide) (by decide) rfl
    exact h.trans (by decide)


end Gauche
